import Mathlib

/-!
Codecat: the matcher, the writer and the walker of `src/main.c`.

A shallow embedding of the C program.

Conventions of the embedding.

* A byte is a natural number; a C string (`const char *`) is the list of its
  bytes before the terminating NUL, so the terminator is the end of the list:
  the test `*p` is "the list is non-empty", `strlen` is `List.length`, and
  `p + 1` is `List.tail`.
* The globals `g_out`, `g_bytes_written`, `g_files_written` are the fields of
  `Globals`, passed explicitly; `g_opts` is an explicit `Options` argument.
* `uint64_t` counters are natural numbers reduced modulo `2 ^ 64` at every
  update.
* `exit` is a constructor of the result type `Res`.
* The C library is modelled by its documented behaviour: `strrchr`,
  `strncmp`, `fwrite` on a sink of bounded room, `fread` delivering the bytes
  of the input stream in chunks, `fopen` as a function from paths to the bytes
  of the file, and `nftw` as a pre-order walk of a `Tree`.
-/

namespace Codecat

/-! ## C strings -/

/-- A C string: its bytes before the terminating NUL. -/
abbrev CStr := List Nat

/-- The bytes of a string literal (all literals used are ASCII). -/
def cstr (s : String) : CStr := s.toList.map Char.toNat

/-- Byte value of `','`. -/
def COMMA : Nat := 44
/-- Byte value of `'.'`. -/
def DOT : Nat := 46
/-- Byte value of `'/'`. -/
def SLASH : Nat := 47

/-- The inline lower-casing used twice in the source:
`if (c >= 'A' && c <= 'Z') c = (char)(c - 'A' + 'a');`. -/
def lower (c : Nat) : Nat :=
  if 65 ≤ c ∧ c ≤ 90 then c - 65 + 97 else c

/-- The C library `strrchr(s, c)` for a non-NUL `c`: the suffix of `s` that
starts at the last occurrence of `c`, or `none` (NULL) when there is none. -/
def strrchr : CStr → Nat → Option CStr
  | [], _ => none
  | x :: t, c =>
    match strrchr t c with
    | some r => some r
    | none => if x = c then some (x :: t) else none

/-- The C library `strncmp(s, t, n)`: compares at most `n` bytes, stopping at
a terminator. -/
def strncmp : CStr → CStr → Nat → Int
  | _, _, 0 => 0
  | [], [], _ + 1 => 0
  | [], b :: _, _ + 1 => 0 - (b : Int)
  | a :: _, [], _ + 1 => (a : Int)
  | a :: s, b :: t, n + 1 => if a = b then strncmp s t n else (a : Int) - (b : Int)

/-! ## Configuration -/

/-- The fields of `Options` read by the matcher, the walker and `main`
(`root` and `out_path` are held by the file system model). -/
structure Options where
  follow_symlinks : Bool
  include_hidden : Bool
  exts : CStr
  exclude_dirs : CStr

/-- The constant `DEFAULT_EXTS`. -/
def DEFAULT_EXTS : CStr :=
  cstr (".c,.h,.cpp,.hpp,.cc,.hh,.cxx,.hxx," ++
    ".rs,.go,.py,.js,.ts,.tsx,.jsx,.java,.kt,.swift,.m,.mm,.cs," ++
    ".php,.rb,.sh,.bash,.zsh,.fish,.ps1,.psm1,.r,.jl,.sql," ++
    ".yaml,.yml,.toml,.ini,.cfg,.conf,.md,.txt,.cmake,.make,.mk," ++
    ".gradle,.sbt,.pl,.pm,.scala,.dart,.lua,.zig,.hs,.erl,.ex,.exs,.elm,.hx")

/-- The constant `DEFAULT_EXCLUDES`. -/
def DEFAULT_EXCLUDES : CStr :=
  cstr ".git,node_modules,.cache,.idea,.vscode,target,build,dist,.venv,venv"

/-- The defaults set at the top of `parse_args`. -/
def defaultOptions : Options :=
  { follow_symlinks := false, include_hidden := false,
    exts := DEFAULT_EXTS, exclude_dirs := DEFAULT_EXCLUDES }

/-! ## Utility: `str_list_contains` -/

/-- The inner loop `while (*p == ',') p++;`. -/
def skip_commas : CStr → CStr
  | [] => []
  | c :: t => if c = COMMA then skip_commas t else c :: t

/-- The inner loop `while (*p && *p != ',') p++;`. -/
def scan_item : CStr → CStr
  | [] => []
  | c :: t => if c ≠ COMMA then scan_item t else c :: t

/-- The case-insensitive `for` loop of `str_list_contains`: the value of `cmp`
after comparing `len` bytes of `start` and `needle` (a read at the end of a
string yields the terminator, 0). -/
def ci_cmp : Nat → CStr → CStr → Int
  | 0, _, _ => 0
  | n + 1, start, needle =>
    let a := lower (start.headD 0)
    let b := lower (needle.headD 0)
    if a ≠ b then (if a < b then -1 else 1)
    else ci_cmp n start.tail needle.tail

/-- The outer `while (*p)` loop of `str_list_contains`, started at `p`; the
first argument bounds the number of iterations. -/
def str_list_loop (needle : CStr) (case_insensitive : Bool) : Nat → CStr → Bool
  | 0, _ => false
  | fuel + 1, p =>
    match p with
    | [] => false
    | _ :: _ =>
      let p1 := skip_commas p
      match p1 with
      | [] => false
      | _ :: _ =>
        let start := p1
        let p2 := scan_item p1
        let len := start.length - p2.length
        if len = 0 then str_list_loop needle case_insensitive fuel p2
        else if needle.length = len ∧
            (if case_insensitive then ci_cmp len start needle
             else strncmp start needle len) = 0 then true
        else str_list_loop needle case_insensitive fuel p2

/-- The function `str_list_contains`; `none` is a NULL pointer.  Every
iteration of the outer loop consumes at least one byte of `csv`, so
`csv.length + 1` iterations always reach the end (`str_list_loop_iff`). -/
def str_list_contains (csv needle : Option CStr) (case_insensitive : Bool) : Bool :=
  match csv, needle with
  | some csv, some needle => str_list_loop needle case_insensitive (csv.length + 1) csv
  | _, _ => false

/-! ## Utility: paths -/

/-- The function `path_basename` (non-Windows build). -/
def path_basename (path : CStr) : CStr :=
  match strrchr path SLASH with
  | some b => b.tail
  | none => path

/-- The function `path_extension`. -/
def path_extension (path : CStr) : CStr :=
  let base := path_basename path
  match strrchr base DOT with
  | some dot => dot
  | none => []

/-- The function `is_hidden`. -/
def is_hidden (path : CStr) : Bool :=
  let base := path_basename path
  base.head? = some DOT

/-- The function `should_skip_dir`. -/
def should_skip_dir (o : Options) (path : CStr) : Bool :=
  let base := path_basename path
  if !o.include_hidden && base.head? = some DOT then true
  else str_list_contains (some o.exclude_dirs) (some base) false

/-- The function `has_allowed_ext`; `sizeof(buf)` is 64. -/
def has_allowed_ext (o : Options) (path : CStr) : Bool :=
  let ext := path_extension path
  match ext with
  | [] => false
  | _ :: _ =>
    let elen := ext.length
    if elen ≥ 64 then false
    else
      let buf := ext.map lower
      str_list_contains (some o.exts) (some buf) true

/-! ## The buffer of `has_allowed_ext` -/

/-- The store `buf[i] = c` into an array, checked: `none` when `i` is not an
index of the array. -/
def buf_store (buf : List Nat) (i c : Nat) : Option (List Nat) :=
  if i < buf.length then some (buf.set i c) else none

/-- The `for` loop of `has_allowed_ext` from the index `i` on; the first
argument is what is left of `ext` at that index. -/
def fill_buf : CStr → Nat → List Nat → Option (List Nat)
  | [], _, buf => some buf
  | c :: rest, i, buf =>
    match buf_store buf i (lower c) with
    | none => none
    | some buf => fill_buf rest (i + 1) buf

/-- The function `has_allowed_ext` with its local array explicit: `buf0` is
the content of `char buf[64]` on entry, and the result is `none` when a store
falls outside the array.  The string handed to `str_list_contains` is what
the array holds before the terminator stored at `buf[elen]`. -/
def has_allowed_ext_buf (o : Options) (buf0 : List Nat) (path : CStr) : Option Bool :=
  let ext := path_extension path
  match ext with
  | [] => some false
  | _ :: _ =>
    let elen := ext.length
    if elen ≥ 64 then some false
    else
      match fill_buf ext 0 buf0 with
      | none => none
      | some buf =>
        match buf_store buf elen 0 with
        | none => none
        | some buf => some (str_list_contains (some o.exts) (some (buf.take elen)) true)

/-! ## The output sink and the run counters -/

/-- A line on the diagnostic stream. -/
inductive Diag where
  | cannot_open (path : CStr)
  | write_error
  deriving DecidableEq, Repr

/-- The mutable globals.  `out` holds the bytes the sink `g_out` has accepted
so far and `room` the number of bytes it will still accept (a full disk is
`room = 0`); `emitted` is a history variable, not program state: the paths
handed to `write_header`, in order, that is the files whose BEGIN marker was
issued. -/
structure Globals where
  out : List Nat
  room : Nat
  bytes_written : Nat
  files_written : Nat
  err : List Diag
  emitted : List CStr
  deriving DecidableEq, Repr

/-- The state in which `main` starts the walk, for a sink with `room` bytes. -/
def initGlobals (room : Nat) : Globals :=
  { out := [], room := room, bytes_written := 0, files_written := 0, err := [], emitted := [] }

/-- Result of a function that may call `exit`. -/
inductive Res (α : Type) where
  | ok (val : α) (g : Globals)
  | exit (status : Nat) (g : Globals)
  deriving DecidableEq, Repr

/-- The globals at the point where the function returned or exited. -/
def Res.globals {α : Type} : Res α → Globals
  | .ok _ g => g
  | .exit _ g => g

/-- The C library `fwrite(data, 1, n, g_out)` with `n = data.length`: the sink
takes as many of the bytes as it has room for and the count taken is
returned.  The buffer stdio keeps in front of the sink is not modelled: in the
program a write that fits that buffer returns the full count, and a refusal by
the sink shows at a later, larger write or at the flush.  The two agree
wherever the sink has room for what is written. -/
def fwrite (data : List Nat) (g : Globals) : Nat × Globals :=
  let w := min data.length g.room
  (w, { g with out := g.out ++ data.take w, room := g.room - w })

/-- The statement `g_bytes_written += n` on the `uint64_t` counter. -/
def add_bytes (n : Nat) (g : Globals) : Globals :=
  { g with bytes_written := (g.bytes_written + n) % 2 ^ 64 }

/-- The literal `prefix` of `write_header`. -/
def HEADER_PREFIX : CStr := cstr "==================== BEGIN FILE: "
/-- The literal `suffix` of `write_header`. -/
def HEADER_SUFFIX : CStr := cstr " ====================\n"
/-- The literal `line` of `write_footer`. -/
def FOOTER_LINE : CStr := cstr "\n===================== END FILE =====================\n\n"

/-- The function `write_header`: three writes whose results are not looked at,
each followed by the addition of the full length to the counter.  The first
line records the call in the history variable `emitted`. -/
def write_header (path : CStr) (g : Globals) : Globals :=
  let g := { g with emitted := g.emitted ++ [path] }
  let g := add_bytes HEADER_PREFIX.length (fwrite HEADER_PREFIX g).2
  let g := add_bytes path.length (fwrite path g).2
  add_bytes HEADER_SUFFIX.length (fwrite HEADER_SUFFIX g).2

/-- The function `write_footer`. -/
def write_footer (g : Globals) : Globals :=
  add_bytes FOOTER_LINE.length (fwrite FOOTER_LINE g).2

/-- The loop of `copy_stream` for a buffer of `size` bytes; `input` is what is
left to read of the input stream, and `fread` delivers its next
`min size input.length` bytes.  The first argument bounds the number of
iterations. -/
def copy_loop (size : Nat) : Nat → List Nat → Globals → Res Unit
  | 0, _, g => .ok () g
  | fuel + 1, input, g =>
    let buf := input.take size
    let n := buf.length
    if n > 0 then
      let (w, g) := fwrite buf g
      let g := add_bytes w g
      if w ≠ n then .exit 1 { g with err := g.err ++ [Diag.write_error] }
      else copy_loop size fuel (input.drop size) g
    else .ok () g

/-- The size of the buffer of `copy_stream`, `1 << 15`. -/
def BUF_SIZE : Nat := 1 <<< 15

/-- The function `copy_stream`.  Every iteration that continues has read at
least one byte, so `input.length + 1` iterations reach the end of the input. -/
def copy_stream (input : List Nat) (g : Globals) : Res Unit :=
  copy_loop BUF_SIZE (input.length + 1) input g

/-! ## The visitor -/

/-- The type flags `nftw` passes to its callback. -/
inductive TypeFlag where
  | FTW_F | FTW_D | FTW_DNR | FTW_NS | FTW_SL | FTW_DP | FTW_SLN
  deriving DecidableEq, Repr

/-- Return value `FTW_CONTINUE` of a callback. -/
def FTW_CONTINUE : Int := 0
/-- Return value `FTW_STOP` of a callback. -/
def FTW_STOP : Int := 1
/-- Return value `FTW_SKIP_SUBTREE` of a callback. -/
def FTW_SKIP_SUBTREE : Int := 2
/-- Return value `FTW_SKIP_SIBLINGS` of a callback. -/
def FTW_SKIP_SIBLINGS : Int := 3

/-- The function `visitor`.  `fopen_rb fpath` is the result of
`fopen(fpath, "rb")`: `none` when the file cannot be opened, otherwise the
bytes the stream delivers. -/
def visitor (o : Options) (fopen_rb : CStr → Option (List Nat))
    (fpath : CStr) (typeflag : TypeFlag) (g : Globals) : Res Int :=
  if typeflag = .FTW_D ∨ typeflag = .FTW_DNR then
    if should_skip_dir o fpath then .ok FTW_SKIP_SUBTREE g
    else .ok 0 g
  else if typeflag ≠ .FTW_F then .ok 0 g
  else if !o.include_hidden && is_hidden fpath then .ok 0 g
  else if !has_allowed_ext o fpath then .ok 0 g
  else
    match fopen_rb fpath with
    | none => .ok 0 { g with err := g.err ++ [Diag.cannot_open fpath] }
    | some input =>
      let g := write_header fpath g
      match copy_stream input g with
      | .exit status g => .exit status g
      | .ok _ g =>
        let g := write_footer g
        .ok 0 { g with files_written := (g.files_written + 1) % 2 ^ 64 }

/-- A sequence of calls of `visitor`, one per entry, in order; a call that
exits ends the sequence. -/
def visit_all (o : Options) (fopen_rb : CStr → Option (List Nat)) :
    List (CStr × TypeFlag) → Globals → Res Unit
  | [], g => .ok () g
  | (fpath, typeflag) :: rest, g =>
    match visitor o fopen_rb fpath typeflag g with
    | .exit status g => .exit status g
    | .ok _ g => visit_all o fopen_rb rest g

/-! ## The tree walk -/

/-- A file tree as the walk sees it.  A `leaf` is an entry that is not walked
into, with the type flag the walk reports for it; a `dir` is a directory with
its listing in the order the directory stream yields it, and `readable` tells
whether that listing can be read. -/
inductive Tree where
  | leaf (name : CStr) (typeflag : TypeFlag)
  | dir (name : CStr) (readable : Bool) (children : List Tree)

/-- Flag bit `FTW_PHYS`. -/
def FTW_PHYS : Nat := 1
/-- Flag bit `FTW_CHDIR`. -/
def FTW_CHDIR : Nat := 4
/-- Flag bit `FTW_ACTIONRETVAL`. -/
def FTW_ACTIONRETVAL : Nat := 16

/-- The path the walk builds for an entry `name` of the directory `dir`: a
`'/'` is put between them unless `dir` already ends in one. -/
def child_path (dir name : CStr) : CStr :=
  if dir.getLast? = some SLASH then dir ++ name else dir ++ SLASH :: name

/-- The name of the root of a tree. -/
def Tree.name : Tree → CStr
  | .leaf name _ => name
  | .dir name _ _ => name

mutual
/-- The C library `nftw` (pre-order, no `FTW_DEPTH`) at the entry `t` whose
path is `path`, calling `fn` on every entry it reaches.  Without
`FTW_ACTIONRETVAL` in `flags`, a non-zero return value of `fn` stops the whole
walk and is returned.  With it, `FTW_SKIP_SUBTREE` on a directory skips that
directory only, `FTW_SKIP_SIBLINGS` skips the rest of the current listing, and
any other non-zero value stops the walk. -/
def nftw_entry (fn : CStr → TypeFlag → Globals → Res Int) (flags : Nat)
    (path : CStr) : Tree → Globals → Res Int
  | .leaf _ typeflag, g =>
    match fn path typeflag g with
    | .exit status g => .exit status g
    | .ok r g =>
      if flags.testBit 4 ∧ r = FTW_SKIP_SUBTREE then .ok 0 g else .ok r g
  | .dir _ readable children, g =>
    match fn path (if readable then .FTW_D else .FTW_DNR) g with
    | .exit status g => .exit status g
    | .ok r g =>
      if r ≠ 0 then
        if flags.testBit 4 ∧ r = FTW_SKIP_SUBTREE then .ok 0 g else .ok r g
      else if readable then nftw_list fn flags path children g
      else .ok 0 g
/-- The walk over the listing of the directory `dir`. -/
def nftw_list (fn : CStr → TypeFlag → Globals → Res Int) (flags : Nat)
    (dir : CStr) : List Tree → Globals → Res Int
  | [], g => .ok 0 g
  | t :: rest, g =>
    match nftw_entry fn flags (child_path dir t.name) t g with
    | .exit status g => .exit status g
    | .ok r g =>
      if r ≠ 0 then
        if flags.testBit 4 ∧ r = FTW_SKIP_SIBLINGS then .ok 0 g else .ok r g
      else nftw_list fn flags dir rest g
end

/-- The call `nftw(root, fn, 64, flags)` on an existing root: the path of the
root is its name, as given (a library that first strips trailing slashes from
the root agrees with this on every root that does not end in a slash).  With
`FTW_ACTIONRETVAL` a skip request that reaches the top is not an error. -/
def nftw (fn : CStr → TypeFlag → Globals → Res Int) (flags : Nat) (root : Tree)
    (g : Globals) : Res Int :=
  match nftw_entry fn flags root.name root g with
  | .exit status g => .exit status g
  | .ok r g => if flags.testBit 4 ∧ r = FTW_SKIP_SIBLINGS then .ok 0 g else .ok r g

/-- The flags `main` computes. -/
def main_flags (o : Options) : Nat :=
  if o.follow_symlinks then FTW_CHDIR else FTW_PHYS

/-- The walk as `main` runs it: `nftw(g_opts.root, visitor, 64, flags)` from
the initial counters. -/
def main_walk (o : Options) (fopen_rb : CStr → Option (List Nat)) (root : Tree)
    (room : Nat) : Res Int :=
  nftw (visitor o fopen_rb) (main_flags o) root (initGlobals room)

/-! ## Specification-side notions -/

/-- The fields of a comma-separated list: the list is cut at every comma. -/
def fields : CStr → List CStr
  | [] => [[]]
  | c :: t =>
    if c = COMMA then [] :: fields t
    else
      match fields t with
      | [] => [[c]]
      | f :: fs => (c :: f) :: fs

/-- The names of a comma-separated list: its non-empty fields. -/
def names (csv : CStr) : List CStr :=
  (fields csv).filter (fun f => decide (f ≠ []))

/-- The final component of a path: what follows its last `'/'`, the whole path
when it has none. -/
def final_component (path : CStr) : CStr :=
  path.rtakeWhile (fun c => decide (c ≠ SLASH))

/-- The substring after the last `'.'` of a component, empty if it has no
`'.'`. -/
def after_last_dot (comp : CStr) : CStr :=
  if DOT ∈ comp then comp.rtakeWhile (fun c => decide (c ≠ DOT)) else []

/-- Equality of two names as `str_list_contains` tests it: byte for byte, or
after lower-casing both sides when the flag is set. -/
def same_name (case_insensitive : Bool) (a b : CStr) : Prop :=
  if case_insensitive then a.map lower = b.map lower else a = b

instance (ci : Bool) (a b : CStr) : Decidable (same_name ci a b) := by
  unfold same_name; exact inferInstance

/-- The frame of one file in the output stream. -/
def frame (path : CStr) (content : List Nat) : List Nat :=
  HEADER_PREFIX ++ path ++ HEADER_SUFFIX ++ content ++ FOOTER_LINE

/-- The globals after the sink has accepted `bytes` in full and the byte
counter has been advanced by their number. -/
def appended (bytes : List Nat) (g : Globals) : Globals :=
  { g with out := g.out ++ bytes, room := g.room - bytes.length,
           bytes_written := (g.bytes_written + bytes.length) % 2 ^ 64 }

/-- The globals after one complete emission of the file `path` with the bytes
`content`. -/
def emitted_state (path : CStr) (content : List Nat) (g : Globals) : Globals :=
  { g with out := g.out ++ frame path content,
           room := g.room - (frame path content).length,
           bytes_written := (g.bytes_written + (frame path content).length) % 2 ^ 64,
           files_written := (g.files_written + 1) % 2 ^ 64,
           emitted := g.emitted ++ [path] }

/-- The admission rule for an entry: a regular file that is not hidden, unless
hidden entries are included, and whose extension is allowed. -/
def admits (o : Options) (path : CStr) (typeflag : TypeFlag) : Bool :=
  decide (typeflag = .FTW_F) &&
    (o.include_hidden || !decide ((final_component path).head? = some DOT)) &&
    has_allowed_ext o path

/-- The files of a sequence of entries that are admitted and can be opened,
in the order of the sequence, each with its bytes. -/
def emitted_files (o : Options) (fopen_rb : CStr → Option (List Nat)) :
    List (CStr × TypeFlag) → List (CStr × List Nat)
  | [] => []
  | (path, typeflag) :: rest =>
    if admits o path typeflag then
      match fopen_rb path with
      | some content => (path, content) :: emitted_files o fopen_rb rest
      | none => emitted_files o fopen_rb rest
    else emitted_files o fopen_rb rest

/-- The concatenation of the frames of a list of files. -/
def frames : List (CStr × List Nat) → List Nat
  | [] => []
  | (path, content) :: rest => frame path content ++ frames rest

mutual
/-- The paths of an entry and of everything beneath it, as the walk builds
them. -/
def all_paths (path : CStr) : Tree → List CStr
  | .leaf _ _ => [path]
  | .dir _ _ children => path :: all_paths_list path children
/-- The paths of everything in the listing of the directory `dir`. -/
def all_paths_list (dir : CStr) : List Tree → List CStr
  | [] => []
  | t :: rest => all_paths (child_path dir t.name) t ++ all_paths_list dir rest
end

mutual
/-- The paths of the entries located beneath a directory for which
`should_skip_dir` holds. -/
def beneath_skipped (o : Options) (path : CStr) : Tree → List CStr
  | .leaf _ _ => []
  | .dir _ _ children =>
    if should_skip_dir o path then all_paths_list path children
    else beneath_skipped_list o path children
/-- The same over the listing of the directory `dir`. -/
def beneath_skipped_list (o : Options) (dir : CStr) : List Tree → List CStr
  | [] => []
  | t :: rest =>
    beneath_skipped o (child_path dir t.name) t ++ beneath_skipped_list o dir rest
end

/-- A segment of a comma-separated list: a non-empty stretch of `csv` free of
commas that is maximal, that is, preceded by the start of the list or by a
comma and followed by the end of the list or by a comma. -/
def is_segment (csv e : CStr) : Prop :=
  e ≠ [] ∧ COMMA ∉ e ∧
    ∃ pre post, csv = pre ++ e ++ post ∧
      (pre = [] ∨ ∃ p, pre = p ++ [COMMA]) ∧ (post = [] ∨ ∃ q, post = COMMA :: q)

/-- The globals with the lines `e` put in front of the diagnostic stream. -/
def with_diag (e : List Diag) (g : Globals) : Globals :=
  { g with err := e ++ g.err }

/-- The same on a result. -/
def Res.with_diag {α : Type} (e : List Diag) : Res α → Res α
  | .ok v g => .ok v (Codecat.with_diag e g)
  | .exit status g => .exit status (Codecat.with_diag e g)

/-- The globals with the diagnostic stream left out. -/
def no_diag (g : Globals) : Globals :=
  { g with err := [] }

/-- The same on a result: return value or exit status, output and counters,
without the diagnostic stream. -/
def Res.no_diag {α : Type} : Res α → Res α
  | .ok v g => .ok v (Codecat.no_diag g)
  | .exit status g => .exit status (Codecat.no_diag g)

/-! ## Concrete inputs -/

/-- Scenario B with the hidden directory listed first. -/
def scenarioB : Tree :=
  .dir (cstr "proj") true
    [.dir (cstr ".git") true [.leaf (cstr "config") .FTW_F],
     .dir (cstr "src") true [.leaf (cstr "main.c") .FTW_F]]

/-- Scenario B with the hidden directory listed last. -/
def scenarioB_last : Tree :=
  .dir (cstr "proj") true
    [.dir (cstr "src") true [.leaf (cstr "main.c") .FTW_F],
     .dir (cstr ".git") true [.leaf (cstr "config.c") .FTW_F]]

/-- A file system in which every file opens and holds the one byte `x`. -/
def fsAll : CStr → Option (List Nat) := fun _ => some [120]

/-- Options with the given extension list and the other defaults. -/
def optsExts (exts : String) : Options :=
  { defaultOptions with exts := cstr exts }

/-- Options with the given exclude list and the other defaults. -/
def optsExcl (exclude_dirs : String) : Options :=
  { defaultOptions with exclude_dirs := cstr exclude_dirs }

/-- A file system in which only `a.c` can be opened; it holds `bytes`. -/
def fsOnly (bytes : List Nat) : CStr → Option (List Nat) :=
  fun path => if path = cstr "a.c" then some bytes else none

/-- A path `a.xx…x` whose extension, dot included, has `n + 1` bytes. -/
def longExtPath (n : Nat) : CStr := cstr "a" ++ DOT :: List.replicate n 120

/-- Options whose extension list is the one entry `.xx…x` of `n + 1` bytes. -/
def longExtOpts (n : Nat) : Options :=
  { defaultOptions with exts := DOT :: List.replicate n 120 }

/-- Scenario D: `ok.c` opens and holds `x`, `locked.c` cannot be opened. -/
def fsScenarioD : CStr → Option (List Nat) :=
  fun path => if path = cstr "ok.c" then some [120] else none

/-- A content that itself holds an end marker and the begin marker of
`b.c`: `x`, end marker, begin marker of `b.c`, `y`. -/
def nestedContent : List Nat :=
  [120] ++ FOOTER_LINE ++ HEADER_PREFIX ++ cstr "b.c" ++ HEADER_SUFFIX ++ [121]

/-- A file system with the one file `a.c` holding `nestedContent`. -/
def fsNested : CStr → Option (List Nat) :=
  fun path => if path = cstr "a.c" then some nestedContent else none

/-- A file system with `a.c` holding `x` and `b.c` holding `y`. -/
def fsTwo : CStr → Option (List Nat) :=
  fun path =>
    if path = cstr "a.c" then some [120]
    else if path = cstr "b.c" then some [121]
    else none

/-- A tree rooted at `.` with a visible source file and a subdirectory. -/
def dotRooted : Tree :=
  .dir (cstr ".") true
    [.leaf (cstr "main.c") .FTW_F, .dir (cstr "src") true [.leaf (cstr "a.c") .FTW_F]]

/-- A content of 4 MiB of the byte `x`: more than a stdio buffer holds. -/
def bigContent : List Nat := List.replicate 4194304 120

/-- A file system with the one file `a.c` holding `bigContent`. -/
def fsBig : CStr → Option (List Nat) :=
  fun path => if path = cstr "a.c" then some bigContent else none

/-- A file system for Scenario B in which `proj/src/main.c` holds, as its
content, the text of the begin marker of `proj/.git/config.c`. -/
def fsMarker : CStr → Option (List Nat) :=
  fun path =>
    if path = cstr "proj/src/main.c" then
      some (HEADER_PREFIX ++ cstr "proj/.git/config.c" ++ HEADER_SUFFIX)
    else some [120]

/-! ## Lemmas: lower-casing and comparison -/

theorem lower_idem (c : Nat) : lower (lower c) = lower c := by
  unfold lower; split_ifs <;> omega

theorem lower_eq_comma (c : Nat) : lower c = COMMA ↔ c = COMMA := by
  unfold lower COMMA; split_ifs <;> omega

theorem map_lower_idem (s : CStr) : (s.map lower).map lower = s.map lower := by
  simp [List.map_map, Function.comp_def, lower_idem]

theorem ci_cmp_eq_zero (n : Nat) : ∀ (s t : CStr), n ≤ s.length → n ≤ t.length →
    (ci_cmp n s t = 0 ↔ (s.take n).map lower = (t.take n).map lower) := by
  induction n with
  | zero => intro s t _ _; simp [ci_cmp]
  | succ n ih =>
    intro s t hs ht
    cases s with
    | nil => simp at hs
    | cons a s =>
      cases t with
      | nil => simp at ht
      | cons b t =>
        simp only [List.length_cons, Nat.add_le_add_iff_right] at hs ht
        by_cases hab : lower a = lower b
        · simp [ci_cmp, hab, ih s t hs ht]
        · simp only [ci_cmp, List.headD_cons, ne_eq, hab, not_false_eq_true, if_true,
            List.take_succ_cons, List.map_cons, List.cons.injEq, false_and, iff_false]
          split_ifs <;> decide

theorem strncmp_eq_zero (n : Nat) : ∀ (s t : CStr), n ≤ s.length → t.length = n →
    (strncmp s t n = 0 ↔ s.take n = t) := by
  induction n with
  | zero => intro s t _ ht; simp [strncmp, List.length_eq_zero.mp ht]
  | succ n ih =>
    intro s t hs ht
    cases s with
    | nil => simp at hs
    | cons a s =>
      cases t with
      | nil => simp at ht
      | cons b t =>
        simp only [List.length_cons, Nat.add_le_add_iff_right, Nat.add_right_cancel_iff] at hs ht
        by_cases hab : a = b
        · simp [strncmp, hab, ih s t hs ht]
        · simp only [strncmp, hab, if_false, List.take_succ_cons, List.cons.injEq, false_and,
            iff_false]
          omega


/-! ## Lemmas: the list scan -/

theorem scan_item_eq (p : CStr) :
    scan_item p = p.dropWhile (fun c => decide (c ≠ COMMA)) := by
  induction p with
  | nil => rfl
  | cons c t ih =>
    by_cases h : c = COMMA <;> simp [scan_item, List.dropWhile_cons, h, ih]

theorem skip_commas_length_le (p : CStr) : (skip_commas p).length ≤ p.length := by
  induction p with
  | nil => simp [skip_commas]
  | cons c t ih =>
    by_cases h : c = COMMA
    · simp only [skip_commas, h, if_true, List.length_cons]; omega
    · simp [skip_commas, h]

theorem skip_commas_head (p : CStr) : ∀ c t, skip_commas p = c :: t → c ≠ COMMA := by
  induction p with
  | nil => intro c t h; simp [skip_commas] at h
  | cons x r ih =>
    intro c t h
    by_cases hx : x = COMMA
    · simp only [skip_commas, hx, if_true] at h; exact ih c t h
    · simp only [skip_commas, hx, if_false, List.cons.injEq] at h
      rw [← h.1]; exact hx

theorem fields_eq (p : CStr) :
    fields p = p.takeWhile (fun c => decide (c ≠ COMMA)) ::
      (match p.dropWhile (fun c => decide (c ≠ COMMA)) with
       | [] => []
       | _ :: t => fields t) := by
  induction p with
  | nil => rfl
  | cons c t ih =>
    by_cases h : c = COMMA
    · simp [fields, h, List.takeWhile_cons, List.dropWhile_cons]
    · rw [fields, if_neg h, ih]
      simp [List.takeWhile_cons, List.dropWhile_cons, h]

theorem names_nil : names [] = [] := by
  simp [names, fields]

theorem names_comma (t : CStr) : names (COMMA :: t) = names t := by
  simp [names, fields]

theorem names_skip_commas (p : CStr) : names (skip_commas p) = names p := by
  induction p with
  | nil => rfl
  | cons c t ih =>
    by_cases h : c = COMMA
    · simp only [skip_commas, h, if_true, names_comma]; exact ih
    · simp [skip_commas, h]

theorem names_cons (c : Nat) (t : CStr) (h : c ≠ COMMA) :
    names (c :: t) = (c :: t).takeWhile (fun c => decide (c ≠ COMMA)) ::
      names (scan_item (c :: t)) := by
  have hd : ∀ q : CStr, (match q.dropWhile (fun c => decide (c ≠ COMMA)) with
       | [] => ([] : List CStr)
       | _ :: r => fields r).filter (fun f => decide (f ≠ [])) =
      names (q.dropWhile (fun c => decide (c ≠ COMMA))) := by
    intro q
    induction q with
    | nil => simp [names, fields]
    | cons x r ih =>
      by_cases hx : x = COMMA
      · simp [List.dropWhile_cons, hx, names, fields]
      · simpa [List.dropWhile_cons, hx] using ih
  rw [scan_item_eq]
  have := hd (c :: t)
  rw [names, fields_eq, List.filter_cons]
  simp only [List.takeWhile_cons, h, ne_eq, not_false_eq_true, decide_True, if_true,
    reduceCtorEq, if_true] at this ⊢
  rw [this]

theorem take_scan_item (p : CStr) :
    p.take (p.length - (scan_item p).length) = p.takeWhile (fun c => decide (c ≠ COMMA)) := by
  have h := List.takeWhile_append_dropWhile (fun c => decide (c ≠ COMMA)) p
  have hl : p.length = (p.takeWhile (fun c => decide (c ≠ COMMA))).length +
      (p.dropWhile (fun c => decide (c ≠ COMMA))).length := by
    rw [← List.length_append, h]
  rw [scan_item_eq]
  have hk : p.length - (p.dropWhile (fun c => decide (c ≠ COMMA))).length =
      (p.takeWhile (fun c => decide (c ≠ COMMA))).length := by omega
  rw [hk]
  have h2 := List.take_left (p.takeWhile (fun c => decide (c ≠ COMMA)))
    (p.dropWhile (fun c => decide (c ≠ COMMA)))
  rw [h] at h2
  exact h2

theorem scan_item_length_lt (c : Nat) (t : CStr) (h : c ≠ COMMA) :
    (scan_item (c :: t)).length < (c :: t).length := by
  have h1 : scan_item (c :: t) = scan_item t := by simp [scan_item, h]
  rw [h1, scan_item_eq]
  have := (List.dropWhile_sublist (l := t) (fun c => decide (c ≠ COMMA))).length_le
  simp only [List.length_cons]
  omega

/-- One item of the list against the needle: the test made by the loop body
agrees with `same_name` on the item. -/
theorem item_test (needle : CStr) (ci : Bool) (p1 : CStr) :
    (needle.length = p1.length - (scan_item p1).length ∧
      (if ci then ci_cmp (p1.length - (scan_item p1).length) p1 needle
       else strncmp p1 needle (p1.length - (scan_item p1).length)) = 0) ↔
    same_name ci (p1.takeWhile (fun c => decide (c ≠ COMMA))) needle := by
  have htk := take_scan_item p1
  have hle : p1.length - (scan_item p1).length ≤ p1.length := Nat.sub_le _ _
  have hlen : (p1.takeWhile (fun c => decide (c ≠ COMMA))).length =
      p1.length - (scan_item p1).length := by
    rw [← htk, List.length_take]; omega
  cases ci with
  | true =>
    simp only [if_true, same_name]
    constructor
    · rintro ⟨hn, hc⟩
      rw [ci_cmp_eq_zero _ _ _ hle (le_of_eq hn.symm), htk, ← hn, List.take_length] at hc
      exact hc
    · intro hm
      have hn : needle.length = p1.length - (scan_item p1).length := by
        have := congrArg List.length hm
        simp only [List.length_map] at this
        omega
      refine ⟨hn, ?_⟩
      rw [ci_cmp_eq_zero _ _ _ hle (le_of_eq hn.symm), htk, ← hn, List.take_length]
      exact hm
  | false =>
    simp only [Bool.false_eq_true, if_false, same_name]
    constructor
    · rintro ⟨hn, hc⟩
      rw [strncmp_eq_zero _ _ _ hle hn, htk] at hc
      exact hc
    · intro hm
      have hn : needle.length = p1.length - (scan_item p1).length := by
        rw [← hm]; exact hlen
      refine ⟨hn, ?_⟩
      rw [strncmp_eq_zero _ _ _ hle hn, htk]
      exact hm

/-- With more iterations allowed than `p` has bytes, the loop of
`str_list_contains` finds the needle exactly when it is one of the names of
`p`. -/
theorem str_list_loop_iff (needle : CStr) (ci : Bool) :
    ∀ (fuel : Nat) (p : CStr), p.length < fuel →
      (str_list_loop needle ci fuel p = true ↔ ∃ e ∈ names p, same_name ci e needle) := by
  intro fuel
  induction fuel with
  | zero => intro p h; omega
  | succ fuel ih =>
    intro p hp
    cases p with
    | nil => simp [str_list_loop, names_nil]
    | cons x r =>
      rw [← names_skip_commas (x :: r)]
      have hsk := skip_commas_length_le (x :: r)
      have hhd := skip_commas_head (x :: r)
      simp only [str_list_loop]
      generalize skip_commas (x :: r) = p1 at hsk hhd
      cases p1 with
      | nil => simp [names_nil]
      | cons c t =>
        have hc : c ≠ COMMA := hhd c t rfl
        have hlt := scan_item_length_lt c t hc
        have hih := ih (scan_item (c :: t)) (by omega)
        have hne : (c :: t).length - (scan_item (c :: t)).length ≠ 0 := by omega
        have hit := item_test needle ci (c :: t)
        simp only [hne, if_false]
        rw [names_cons c t hc]
        by_cases hm : same_name ci ((c :: t).takeWhile (fun c => decide (c ≠ COMMA))) needle
        · rw [if_pos (hit.mpr hm)]
          simp only [true_iff]
          exact ⟨_, List.mem_cons_self _ _, hm⟩
        · rw [if_neg (fun h => hm (hit.mp h)), hih]
          constructor
          · rintro ⟨e, he, hs⟩
            exact ⟨e, List.mem_cons_of_mem _ he, hs⟩
          · rintro ⟨e, he, hs⟩
            rcases List.mem_cons.mp he with heq | hmem
            · rw [heq] at hs; exact absurd hs hm
            · exact ⟨e, hmem, hs⟩

/-- The iteration bound chosen in `str_list_contains` is never reached: the
function decides membership among the names of the list. -/
theorem str_list_contains_iff (csv needle : CStr) (ci : Bool) :
    str_list_contains (some csv) (some needle) ci = true ↔
      ∃ e ∈ names csv, same_name ci e needle := by
  simp only [str_list_contains]
  exact str_list_loop_iff needle ci (csv.length + 1) csv (Nat.lt_succ_self _)

/-! ## Lemmas: paths -/

theorem takeWhile_append_of_neg {p : Nat → Bool} :
    ∀ (l₁ l₂ : List Nat), (∃ y ∈ l₁, p y = false) →
      (l₁ ++ l₂).takeWhile p = l₁.takeWhile p := by
  intro l₁
  induction l₁ with
  | nil => intro l₂ h; simp at h
  | cons x t ih =>
    intro l₂ h
    by_cases hx : p x = true
    · have ht : ∃ y ∈ t, p y = false := by
        rcases h with ⟨y, hy, hpy⟩
        rcases List.mem_cons.mp hy with rfl | hmem
        · rw [hx] at hpy; exact absurd hpy (by decide)
        · exact ⟨y, hmem, hpy⟩
      simp [List.takeWhile_cons, hx, ih l₂ ht]
    · simp [List.takeWhile_cons, hx]

theorem rtakeWhile_cons_of_neg {p : Nat → Bool} (x : Nat) (t : List Nat)
    (h : ∃ y ∈ t, p y = false) : (x :: t).rtakeWhile p = t.rtakeWhile p := by
  have h2 : ∃ y ∈ t.reverse, p y = false := by
    rcases h with ⟨y, hy, hpy⟩
    exact ⟨y, List.mem_reverse.mpr hy, hpy⟩
  simp only [List.rtakeWhile, List.reverse_cons]
  rw [takeWhile_append_of_neg _ _ h2]

theorem rtakeWhile_cons_stop {p : Nat → Bool} (x : Nat) (t : List Nat)
    (h : ∀ y ∈ t, p y = true) (hx : p x = false) : (x :: t).rtakeWhile p = t := by
  have h2 : ∀ y ∈ t.reverse, p y = true := fun y hy => h y (List.mem_reverse.mp hy)
  simp only [List.rtakeWhile, List.reverse_cons]
  rw [List.takeWhile_append_of_pos h2]
  simp [List.takeWhile_cons, hx]

/-- The suffix `strrchr` returns starts with the byte searched for and goes
on with the longest tail of the string free of it. -/
theorem strrchr_eq (c : Nat) : ∀ s : CStr,
    strrchr s c =
      if c ∈ s then some (c :: s.rtakeWhile (fun x => decide (x ≠ c))) else none := by
  intro s
  induction s with
  | nil => simp [strrchr]
  | cons x t ih =>
    rw [strrchr, ih]
    by_cases hc : c ∈ t
    · have h2 : ∃ y ∈ t, (fun x => decide (x ≠ c)) y = false := ⟨c, hc, by simp⟩
      simp only [hc, if_true, List.mem_cons, or_true]
      rw [rtakeWhile_cons_of_neg x t h2]
    · have hall : ∀ y ∈ t, (fun x => decide (x ≠ c)) y = true := by
        intro y hy
        have : y ≠ c := fun h => hc (h ▸ hy)
        simp [this]
      by_cases hx : x = c
      · subst hx
        simp only [hc, if_false, if_true, List.mem_cons, true_or]
        rw [rtakeWhile_cons_stop x t hall (by simp)]
      · have hx2 : ¬ c = x := fun h => hx h.symm
        simp [hc, hx, hx2]

theorem path_basename_eq (path : CStr) : path_basename path = final_component path := by
  unfold path_basename final_component
  rw [strrchr_eq]
  by_cases h : SLASH ∈ path
  · simp [h]
  · simp only [h, if_false]
    symm
    rw [List.rtakeWhile_eq_self_iff]
    intro y hy
    have : y ≠ SLASH := fun hh => h (hh ▸ hy)
    simp [this]

theorem path_extension_eq (path : CStr) :
    path_extension path =
      if DOT ∈ final_component path then DOT :: after_last_dot (final_component path)
      else [] := by
  unfold path_extension after_last_dot
  simp only [path_basename_eq, strrchr_eq]
  by_cases h : DOT ∈ final_component path <;> simp [h]

theorem is_hidden_eq (path : CStr) :
    is_hidden path = decide ((final_component path).head? = some DOT) := by
  simp [is_hidden, path_basename_eq]

/-! ## Lemmas: the matcher -/

theorem has_allowed_ext_core (o : Options) (path : CStr) :
    has_allowed_ext o path = true ↔
      path_extension path ≠ [] ∧ (path_extension path).length < 64 ∧
      ∃ e ∈ names o.exts, e.map lower = (path_extension path).map lower := by
  unfold has_allowed_ext
  cases hext : path_extension path with
  | nil => simp
  | cons c t =>
    by_cases hlen : (c :: t).length ≥ 64
    · simp only [hlen, if_true, ne_eq, reduceCtorEq, not_false_eq_true, true_and]
      constructor
      · intro h; exact absurd h (by decide)
      · rintro ⟨h, _⟩; omega
    · simp only [hlen, if_false, ne_eq, reduceCtorEq, not_false_eq_true, true_and]
      rw [str_list_contains_iff]
      simp only [same_name, if_true, map_lower_idem]
      constructor
      · intro h; exact ⟨by omega, h⟩
      · rintro ⟨_, h⟩; exact h

theorem fields_map_lower (csv : CStr) :
    fields (csv.map lower) = (fields csv).map (List.map lower) := by
  induction csv with
  | nil => rfl
  | cons c t ih =>
    by_cases h : c = COMMA
    · subst h
      have h2 : lower COMMA = COMMA := (lower_eq_comma COMMA).mpr rfl
      simp only [List.map_cons, fields, h2, if_true, ih, List.map_nil]
    · have h2 : ¬ lower c = COMMA := fun hh => h ((lower_eq_comma c).mp hh)
      simp only [List.map_cons, fields, h, h2, if_false, ih]
      cases fields t <;> simp

theorem names_map_lower (csv : CStr) :
    names (csv.map lower) = (names csv).map (List.map lower) := by
  unfold names
  rw [fields_map_lower]
  generalize fields csv = l
  induction l with
  | nil => rfl
  | cons f fs ih =>
    cases f with
    | nil => simpa using ih
    | cons a r => simpa using ih

theorem has_allowed_ext_lowered (o : Options) (path : CStr) :
    has_allowed_ext o path = true ↔
      (path_extension path).map lower ≠ [] ∧ ((path_extension path).map lower).length < 64 ∧
      (path_extension path).map lower ∈ names (o.exts.map lower) := by
  rw [has_allowed_ext_core, names_map_lower]
  simp only [ne_eq, List.map_eq_nil_iff, List.length_map, List.mem_map]

/-! ## The matcher: results -/

/-- C5: `should_skip_dir` holds exactly when hidden entries are not included
and the final component of the path begins with a dot, or the final component
is, byte for byte, one of the names of the exclude list. -/
theorem should_skip_dir_iff (o : Options) (path : CStr) :
    should_skip_dir o path = true ↔
      (o.include_hidden = false ∧ (final_component path).head? = some DOT) ∨
      final_component path ∈ names o.exclude_dirs := by
  unfold should_skip_dir
  simp only [path_basename_eq]
  by_cases hh : (!o.include_hidden && decide ((final_component path).head? = some DOT)) = true
  · rw [if_pos hh]
    simp only [Bool.and_eq_true, Bool.not_eq_true', decide_eq_true_eq] at hh
    simp only [true_iff]
    exact Or.inl hh
  · rw [if_neg hh, str_list_contains_iff]
    simp only [Bool.and_eq_true, Bool.not_eq_true', decide_eq_true_eq] at hh
    simp only [same_name, Bool.false_eq_true, if_false, exists_eq_right]
    constructor
    · intro h; exact Or.inr h
    · rintro (h | h)
      · exact absurd h hh
      · exact h

/-- The exclude list matches whole names only and with the case given:
`build` excludes neither `Build`, nor `buildx`, nor `buil`, and it excludes
`build`. -/
theorem should_skip_dir_exact :
    should_skip_dir (optsExcl "build") (cstr "p/Build") = false ∧
    should_skip_dir (optsExcl "build") (cstr "p/buildx") = false ∧
    should_skip_dir (optsExcl "build") (cstr "p/buil") = false ∧
    should_skip_dir (optsExcl "build") (cstr "p/build") = true := by
  decide

/-- C4, as stated, fails: with the extension list `.` the path `foo.`, whose
last dot is followed by nothing, is accepted; and with the extension list `c`
the path `a.c` is rejected, although what follows its last dot, `c`, is a name
of the list. -/
theorem has_allowed_ext_trailing_dot :
    after_last_dot (final_component (cstr "foo.")) = [] ∧
    has_allowed_ext (optsExts ".") (cstr "foo.") = true ∧
    after_last_dot (final_component (cstr "a.c")) = cstr "c" ∧
    cstr "c" ∈ names (optsExts "c").exts ∧
    has_allowed_ext (optsExts "c") (cstr "a.c") = false := by
  decide

/-- C4, amended: `has_allowed_ext` holds exactly when the final component of
the path has a dot, its extension taken from the last dot on, dot included, is
shorter than 64 bytes, and that extension equals one of the names of the
extension list after both are lower-cased.  Only the final component is looked
at. -/
theorem has_allowed_ext_iff (o : Options) (path : CStr) :
    has_allowed_ext o path = true ↔
      DOT ∈ final_component path ∧
      (DOT :: after_last_dot (final_component path)).length < 64 ∧
      ∃ e ∈ names o.exts,
        e.map lower = (DOT :: after_last_dot (final_component path)).map lower := by
  rw [has_allowed_ext_core, path_extension_eq]
  by_cases h : DOT ∈ final_component path
  · simp only [h, if_true, ne_eq, reduceCtorEq, not_false_eq_true, true_and]
  · simp [h]

/-- C10: `has_allowed_ext` is unchanged when letters of the extension of the
path change case and when letters of the extension list change case. -/
theorem has_allowed_ext_case (o o' : Options) (path path' : CStr)
    (hp : (path_extension path).map lower = (path_extension path').map lower)
    (he : o.exts.map lower = o'.exts.map lower) :
    has_allowed_ext o path = has_allowed_ext o' path' := by
  rw [Bool.eq_iff_iff, has_allowed_ext_lowered, has_allowed_ext_lowered, hp, he]

/-- C10 at `x.C` against `.c` and `x.c` against `.C`: both match. -/
theorem has_allowed_ext_case_witness :
    (path_extension (cstr "x.C")).map lower = (path_extension (cstr "x.c")).map lower ∧
    (optsExts ".c").exts.map lower = (optsExts ".C").exts.map lower ∧
    has_allowed_ext (optsExts ".c") (cstr "x.C") =
        has_allowed_ext (optsExts ".C") (cstr "x.c") ∧
    has_allowed_ext (optsExts ".c") (cstr "x.C") = true :=
  ⟨by decide, by decide,
   has_allowed_ext_case (optsExts ".c") (optsExts ".C") (cstr "x.C") (cstr "x.c")
      (by decide) (by decide), by decide⟩

/-! ## Lemmas: the writer -/

theorem fwrite_fits (data : List Nat) (g : Globals) (h : data.length ≤ g.room) :
    add_bytes (fwrite data g).1 (fwrite data g).2 = appended data g ∧
      (fwrite data g).1 = data.length := by
  simp [fwrite, add_bytes, appended, Nat.min_eq_left h]

theorem add_bytes_fwrite (data : List Nat) (g : Globals) (h : data.length ≤ g.room) :
    add_bytes data.length (fwrite data g).2 = appended data g := by
  have := (fwrite_fits data g h).1
  rwa [(fwrite_fits data g h).2] at this

theorem appended_appended (a b : List Nat) (g : Globals) :
    appended b (appended a g) = appended (a ++ b) g := by
  simp only [appended, List.append_assoc, List.length_append, Globals.mk.injEq, true_and,
    and_true]
  constructor
  · omega
  · rw [Nat.mod_add_mod, Nat.add_assoc]

theorem appended_room (a : List Nat) (g : Globals) : (appended a g).room = g.room - a.length :=
  rfl

theorem write_header_fits (path : CStr) (g : Globals)
    (h : (HEADER_PREFIX ++ path ++ HEADER_SUFFIX).length ≤ g.room) :
    write_header path g =
      appended (HEADER_PREFIX ++ path ++ HEADER_SUFFIX)
        { g with emitted := g.emitted ++ [path] } := by
  simp only [List.length_append] at h
  have h1 : add_bytes HEADER_PREFIX.length
      (fwrite HEADER_PREFIX { g with emitted := g.emitted ++ [path] }).2 =
      appended HEADER_PREFIX { g with emitted := g.emitted ++ [path] } :=
    add_bytes_fwrite _ _ (by show _ ≤ g.room; omega)
  have h2 : add_bytes path.length
      (fwrite path (appended HEADER_PREFIX { g with emitted := g.emitted ++ [path] })).2 =
      appended path (appended HEADER_PREFIX { g with emitted := g.emitted ++ [path] }) :=
    add_bytes_fwrite _ _ (by show _ ≤ g.room - _; omega)
  have h3 : add_bytes HEADER_SUFFIX.length
      (fwrite HEADER_SUFFIX
        (appended path (appended HEADER_PREFIX { g with emitted := g.emitted ++ [path] }))).2 =
      appended HEADER_SUFFIX
        (appended path (appended HEADER_PREFIX { g with emitted := g.emitted ++ [path] })) :=
    add_bytes_fwrite _ _ (by show _ ≤ g.room - _ - _; omega)
  unfold write_header
  simp only [h1, h2, h3]
  rw [appended_appended, appended_appended, List.append_assoc]

theorem write_footer_fits (g : Globals) (h : FOOTER_LINE.length ≤ g.room) :
    write_footer g = appended FOOTER_LINE g := by
  unfold write_footer
  exact add_bytes_fwrite _ _ h

/-- The copy loop on a sink with room for the whole input: the input is
appended unchanged, for every positive buffer size, and the loop returns. -/
theorem copy_loop_fits (size : Nat) (hsize : 0 < size) :
    ∀ (fuel : Nat) (input : List Nat) (g : Globals), input.length < fuel →
      input.length ≤ g.room →
      copy_loop size fuel input g = .ok () (if input = [] then g else appended input g) := by
  intro fuel
  induction fuel with
  | zero => intro input g h; omega
  | succ fuel ih =>
    intro input g hf hroom
    cases hin : input with
    | nil => simp [copy_loop]
    | cons x r =>
      rw [← hin]
      have hne : input ≠ [] := by rw [hin]; simp
      have hpos : 0 < input.length := List.length_pos.mpr hne
      have hn : (input.take size).length = min size input.length := List.length_take _ _
      have hn0 : (input.take size).length > 0 := by rw [hn]; omega
      have hfit : (input.take size).length ≤ g.room := by rw [hn]; omega
      have hw := fwrite_fits (input.take size) g hfit
      have hdl : (input.drop size).length = input.length - size := List.length_drop _ _
      have hih := ih (input.drop size) (appended (input.take size) g) (by omega)
          (by rw [appended_room, hn, hdl]; omega)
      rw [copy_loop]
      simp only [hn0, if_true, hne, if_false, hw.2, ne_eq, not_true_eq_false]
      rw [add_bytes_fwrite _ _ hfit, hih]
      by_cases hd : input.drop size = []
      · have hl : input.length ≤ size := by
          have := congrArg List.length hd
          simp only [List.length_nil] at this
          omega
        simp only [hd, if_true, List.take_of_length_le hl]
      · simp only [hd, if_false, appended_appended, List.take_append_drop]

theorem copy_stream_fits (input : List Nat) (g : Globals) (h : input.length ≤ g.room) :
    copy_stream input g = .ok () (if input = [] then g else appended input g) :=
  copy_loop_fits BUF_SIZE (by decide) _ input g (Nat.lt_succ_self _) h

/-! ## Lemmas: the visitor -/

theorem frame_length (path : CStr) (content : List Nat) :
    (frame path content).length =
      HEADER_PREFIX.length + path.length + HEADER_SUFFIX.length + content.length +
        FOOTER_LINE.length := by
  simp only [frame, List.length_append]

theorem visitor_rejects (o : Options) (fopen_rb : CStr → Option (List Nat)) (path : CStr)
    (typeflag : TypeFlag) (g : Globals) (h : admits o path typeflag = false) :
    ∃ r, visitor o fopen_rb path typeflag g = .ok r g := by
  unfold visitor
  by_cases hd : typeflag = .FTW_D ∨ typeflag = .FTW_DNR
  · rw [if_pos hd]
    by_cases hs : should_skip_dir o path = true
    · exact ⟨_, by rw [if_pos hs]⟩
    · exact ⟨_, by rw [if_neg hs]⟩
  · rw [if_neg hd]
    by_cases hf : typeflag ≠ .FTW_F
    · exact ⟨_, by rw [if_pos hf]⟩
    · rw [if_neg hf]
      by_cases hh : (!o.include_hidden && is_hidden path) = true
      · exact ⟨_, by rw [if_pos hh]⟩
      · rw [if_neg hh]
        by_cases he : (!has_allowed_ext o path) = true
        · exact ⟨_, by rw [if_pos he]⟩
        · exfalso
          simp only [ne_eq, not_not] at hf
          simp only [is_hidden_eq, Bool.and_eq_true, Bool.not_eq_true', decide_eq_false_iff_not,
            decide_eq_true_eq, not_and, not_not] at hh
          simp only [Bool.not_eq_true', Bool.not_eq_false] at he
          simp only [admits, hf, decide_True, Bool.true_and, he, Bool.and_true,
            Bool.or_eq_false_iff, Bool.not_eq_false', decide_eq_true_eq] at h
          exact absurd h.2 (hh h.1)

theorem visitor_admits_step (o : Options) (fopen_rb : CStr → Option (List Nat)) (path : CStr)
    (typeflag : TypeFlag) (g : Globals) (h : admits o path typeflag = true) :
    visitor o fopen_rb path typeflag g =
      match fopen_rb path with
      | none => .ok 0 { g with err := g.err ++ [Diag.cannot_open path] }
      | some input =>
        match copy_stream input (write_header path g) with
        | .exit status g => .exit status g
        | .ok _ g =>
          .ok 0 { write_footer g with
                  files_written := ((write_footer g).files_written + 1) % 2 ^ 64 } := by
  simp only [admits, Bool.and_eq_true, decide_eq_true_eq, Bool.or_eq_true, Bool.not_eq_true',
    decide_eq_false_iff_not] at h
  obtain ⟨⟨hf, hh⟩, he⟩ := h
  have hh2 : ¬ ((!o.include_hidden && is_hidden path) = true) := by
    simp only [is_hidden_eq, Bool.and_eq_true, Bool.not_eq_true', decide_eq_true_eq, not_and]
    intro hi
    rcases hh with hh | hh
    · rw [hi] at hh; exact absurd hh (by decide)
    · exact hh
  unfold visitor
  subst hf
  simp only [reduceCtorEq, or_self, if_false, ne_eq, not_true_eq_false, hh2, he,
    Bool.not_true, Bool.false_eq_true]

theorem visitor_emits (o : Options) (fopen_rb : CStr → Option (List Nat)) (path : CStr)
    (typeflag : TypeFlag) (content : List Nat) (g : Globals)
    (h : admits o path typeflag = true) (hopen : fopen_rb path = some content)
    (hroom : (frame path content).length ≤ g.room) :
    visitor o fopen_rb path typeflag g = .ok 0 (emitted_state path content g) := by
  rw [visitor_admits_step o fopen_rb path typeflag g h, hopen]
  rw [frame_length] at hroom
  have hhdr : (HEADER_PREFIX ++ path ++ HEADER_SUFFIX).length ≤ g.room := by
    simp only [List.length_append]; omega
  simp only []
  rw [write_header_fits path g hhdr]
  rw [copy_stream_fits content _ (by
    rw [appended_room]; simp only [List.length_append]; omega)]
  simp only []
  by_cases hc : content = []
  · subst hc
    simp only [if_true]
    rw [write_footer_fits _ (by
      rw [appended_room]; simp only [List.length_append, List.length_nil] at hroom ⊢; omega)]
    rw [appended_appended]
    simp [appended, emitted_state, frame]
  · simp only [hc, if_false]
    rw [write_footer_fits _ (by
      rw [appended_room, appended_room]; simp only [List.length_append]; omega)]
    rw [appended_appended, appended_appended]
    simp [appended, emitted_state, frame]

theorem copy_loop_emitted (size : Nat) :
    ∀ (fuel : Nat) (input : List Nat) (g : Globals),
      (copy_loop size fuel input g).globals.emitted = g.emitted := by
  intro fuel
  induction fuel with
  | zero => intro input g; rfl
  | succ fuel ih =>
    intro input g
    rw [copy_loop]
    by_cases hn : (input.take size).length > 0
    · simp only [hn, if_true]
      by_cases hw : (fwrite (input.take size) g).1 ≠ (input.take size).length
      · simp only [hw, ne_eq, not_false_eq_true, if_true]; rfl
      · simp only [hw, if_false]
        rw [ih]; rfl
    · simp only [hn, if_false]; rfl

theorem write_header_emitted (path : CStr) (g : Globals) :
    (write_header path g).emitted = g.emitted ++ [path] := rfl

theorem visitor_emitted (o : Options) (fopen_rb : CStr → Option (List Nat)) (path : CStr)
    (typeflag : TypeFlag) (g : Globals) :
    (visitor o fopen_rb path typeflag g).globals.emitted =
      if admits o path typeflag = true ∧ (fopen_rb path).isSome = true then g.emitted ++ [path]
      else g.emitted := by
  by_cases h : admits o path typeflag = true
  · rw [visitor_admits_step o fopen_rb path typeflag g h]
    cases hopen : fopen_rb path with
    | none => simp [h, Res.globals]
    | some input =>
      have hc := copy_loop_emitted BUF_SIZE (input.length + 1) input (write_header path g)
      rw [write_header_emitted] at hc
      simp only [h, Option.isSome_some, and_self, if_true]
      unfold copy_stream
      cases hcs : copy_loop BUF_SIZE (input.length + 1) input (write_header path g) with
      | exit status g1 => rw [hcs] at hc; exact hc
      | ok v g1 => rw [hcs] at hc; exact hc
  · obtain ⟨r, hr⟩ := visitor_rejects o fopen_rb path typeflag g (by simpa using h)
    simp [hr, h, Res.globals]

/-! ## The writer and the visitor: results -/

/-- C3: a regular file that can be opened is emitted exactly when hidden
entries are included or what follows the last slash of its path does not begin
with a dot, and its extension is allowed.  When it is emitted and the sink
takes the frame, the visitor returns 0 in the state of a complete emission;
when it is not emitted the visitor returns 0 and changes nothing. -/
theorem visitor_file_iff (o : Options) (fopen_rb : CStr → Option (List Nat)) (path : CStr)
    (content : List Nat) (g : Globals) (hopen : fopen_rb path = some content) :
    ((visitor o fopen_rb path .FTW_F g).globals.emitted = g.emitted ++ [path] ↔
      (o.include_hidden = true ∨ (final_component path).head? ≠ some DOT) ∧
        has_allowed_ext o path = true) ∧
    ((o.include_hidden = true ∨ (final_component path).head? ≠ some DOT) ∧
        has_allowed_ext o path = true →
      (frame path content).length ≤ g.room →
      visitor o fopen_rb path .FTW_F g = .ok 0 (emitted_state path content g)) ∧
    (¬ ((o.include_hidden = true ∨ (final_component path).head? ≠ some DOT) ∧
        has_allowed_ext o path = true) →
      visitor o fopen_rb path .FTW_F g = .ok 0 g) := by
  have hadm : admits o path .FTW_F = true ↔
      (o.include_hidden = true ∨ (final_component path).head? ≠ some DOT) ∧
        has_allowed_ext o path = true := by
    simp [admits]
  refine ⟨?_, ?_, ?_⟩
  · rw [visitor_emitted, ← hadm, hopen]
    by_cases h : admits o path .FTW_F = true
    · simp [h]
    · simp [h]
  · intro hc hroom
    exact visitor_emits o fopen_rb path .FTW_F content g (hadm.mpr hc) hopen hroom
  · intro hc
    have h : admits o path .FTW_F = false := by
      cases hh : admits o path .FTW_F
      · rfl
      · exact absurd (hadm.mp hh) hc
    obtain ⟨r, hr⟩ := visitor_rejects o fopen_rb path .FTW_F g h
    have hr0 : r = 0 := by
      unfold visitor at hr
      simp only [reduceCtorEq, or_self, if_false, ne_eq, not_true_eq_false] at hr
      split_ifs at hr with h1 h2
      · injection hr with hr _; exact hr.symm
      · injection hr with hr _; exact hr.symm
      · exfalso
        simp only [Bool.not_eq_true', Bool.not_eq_false] at h2
        simp only [is_hidden_eq, Bool.and_eq_true, Bool.not_eq_true', decide_eq_true_eq,
          not_and] at h1
        apply hc
        refine ⟨?_, h2⟩
        cases hi : o.include_hidden
        · right; exact h1 hi
        · left; rfl
    rw [hr, hr0]

/-- C3 on Scenario A: with the extension list `.c`, `a.c` is emitted. -/
theorem visitor_file_iff_witness :
    fsOnly [120] (cstr "a.c") = some [120] ∧
    (visitor (optsExts ".c") (fsOnly [120]) (cstr "a.c") .FTW_F (initGlobals 200)).globals.emitted =
        [] ++ [cstr "a.c"] :=
  ⟨by decide,
   ((visitor_file_iff (optsExts ".c") (fsOnly [120]) (cstr "a.c") [120] (initGlobals 200)
      (by decide)).1).mpr (by decide)⟩

/-- C6: on a sink with room for the frame, `write_header`, `copy_stream` and
`write_footer` in sequence return normally and append to the output exactly
the begin marker with the path as given, the content unchanged, and the end
marker. -/
theorem emit_appends_frame (path : CStr) (content : List Nat) (g : Globals)
    (hroom : (frame path content).length ≤ g.room) :
    ∃ g1, copy_stream content (write_header path g) = .ok () g1 ∧
      (write_footer g1).out =
        g.out ++ (cstr "==================== BEGIN FILE: " ++ path ++
          cstr " ====================\n" ++ content ++
          cstr "\n===================== END FILE =====================\n\n") := by
  rw [frame_length] at hroom
  have hhdr : (HEADER_PREFIX ++ path ++ HEADER_SUFFIX).length ≤ g.room := by
    simp only [List.length_append]; omega
  rw [write_header_fits path g hhdr]
  rw [copy_stream_fits content _ (by
    rw [appended_room]; simp only [List.length_append]; omega)]
  refine ⟨_, rfl, ?_⟩
  by_cases hc : content = []
  · subst hc
    simp only [if_true]
    rw [write_footer_fits _ (by
      rw [appended_room]; simp only [List.length_append, List.length_nil] at hroom ⊢; omega)]
    simp [appended, HEADER_PREFIX, HEADER_SUFFIX, FOOTER_LINE]
  · simp only [hc, if_false]
    rw [write_footer_fits _ (by
      rw [appended_room, appended_room]; simp only [List.length_append]; omega)]
    simp [appended, HEADER_PREFIX, HEADER_SUFFIX, FOOTER_LINE]

/-- C6 on a content with a NUL byte and a byte that is not UTF-8. -/
theorem emit_appends_frame_witness :
    (frame (cstr "./a//b.c") [0, 255, 13, 10]).length ≤ (initGlobals 200).room ∧
    ∃ g1, copy_stream [0, 255, 13, 10] (write_header (cstr "./a//b.c") (initGlobals 200)) =
        .ok () g1 ∧
      (write_footer g1).out =
        (initGlobals 200).out ++ (cstr "==================== BEGIN FILE: " ++ cstr "./a//b.c" ++
          cstr " ====================\n" ++ [0, 255, 13, 10] ++
          cstr "\n===================== END FILE =====================\n\n") :=
  ⟨by decide, emit_appends_frame (cstr "./a//b.c") [0, 255, 13, 10] (initGlobals 200) (by decide)⟩

/-- C7, the code at a failing input: on a sink that takes only 10 more bytes,
emitting the empty file `a.c` does not stop the run.  The visitor returns 0,
the output holds 10 bytes of the begin marker, the byte counter has been
advanced by the 113 bytes of the whole frame and the file counter by one. -/
theorem visitor_short_marker_write :
    visitor (optsExts ".c") (fsOnly []) (cstr "a.c") .FTW_F (initGlobals 10) =
      .ok 0 { out := cstr "==========", room := 0, bytes_written := 113, files_written := 1,
              err := [], emitted := [cstr "a.c"] } := by
  decide

/-! ## Sequences of visitor calls -/

theorem frames_length (files : List (CStr × List Nat)) :
    (frames files).length =
      (files.map (fun f => HEADER_PREFIX.length + f.1.length + HEADER_SUFFIX.length +
        f.2.length + FOOTER_LINE.length)).sum := by
  induction files with
  | nil => rfl
  | cons f rest ih =>
    obtain ⟨path, content⟩ := f
    simp only [frames, List.length_append, frame_length, ih, List.map_cons, List.sum_cons]

/-- A sequence of visitor calls on a sink with room for every frame: all calls
return, the output grows by the frames of the admitted and opened files in
order, and each counter that held a 64-bit value grows by the bytes, or the
number, of those frames. -/
theorem visit_all_fits (o : Options) (fopen_rb : CStr → Option (List Nat)) :
    ∀ (entries : List (CStr × TypeFlag)) (g : Globals),
      (frames (emitted_files o fopen_rb entries)).length ≤ g.room →
      ∃ g', visit_all o fopen_rb entries g = .ok () g' ∧
        g'.out = g.out ++ frames (emitted_files o fopen_rb entries) ∧
        (g.bytes_written < 2 ^ 64 → g'.bytes_written =
          (g.bytes_written + (frames (emitted_files o fopen_rb entries)).length) % 2 ^ 64) ∧
        (g.files_written < 2 ^ 64 → g'.files_written =
          (g.files_written + (emitted_files o fopen_rb entries).length) % 2 ^ 64) := by
  intro entries
  induction entries with
  | nil =>
    intro g _
    refine ⟨g, rfl, by simp [emitted_files, frames], ?_, ?_⟩
    · intro hb
      simp only [emitted_files, frames, List.length_nil, Nat.add_zero]
      exact (Nat.mod_eq_of_lt hb).symm
    · intro hf
      simp only [emitted_files, List.length_nil, Nat.add_zero]
      exact (Nat.mod_eq_of_lt hf).symm
  | cons e rest ih =>
    intro g hroom
    obtain ⟨path, typeflag⟩ := e
    by_cases hadm : admits o path typeflag = true
    · cases hopen : fopen_rb path with
      | none =>
        have hstep := visitor_admits_step o fopen_rb path typeflag g hadm
        simp only [hopen] at hstep
        have hef : emitted_files o fopen_rb ((path, typeflag) :: rest) =
            emitted_files o fopen_rb rest := by
          simp [emitted_files, hadm, hopen]
        rw [hef] at hroom ⊢
        obtain ⟨g', hg', h1, h2, h3⟩ :=
          ih { g with err := g.err ++ [Diag.cannot_open path] } hroom
        exact ⟨g', by rw [visit_all, hstep]; exact hg', h1, h2, h3⟩
      | some content =>
        have hef : emitted_files o fopen_rb ((path, typeflag) :: rest) =
            (path, content) :: emitted_files o fopen_rb rest := by
          simp [emitted_files, hadm, hopen]
        rw [hef] at hroom ⊢
        simp only [frames, List.length_append] at hroom
        have hstep := visitor_emits o fopen_rb path typeflag content g hadm hopen (by omega)
        obtain ⟨g', hg', h1, h2, h3⟩ :=
          ih (emitted_state path content g) (by simp only [emitted_state]; omega)
        refine ⟨g', by rw [visit_all, hstep]; exact hg', ?_, ?_, ?_⟩
        · rw [h1]; simp [emitted_state, frames]
        · intro _
          rw [h2 (Nat.mod_lt _ (by decide))]
          simp only [emitted_state, frames, List.length_append, Nat.mod_add_mod, Nat.add_assoc]
        · intro _
          rw [h3 (Nat.mod_lt _ (by decide))]
          simp only [emitted_state, List.length_cons, Nat.mod_add_mod]
          congr 1
          omega
    · have hadm2 : admits o path typeflag = false := by simpa using hadm
      obtain ⟨r, hr⟩ := visitor_rejects o fopen_rb path typeflag g hadm2
      have hef : emitted_files o fopen_rb ((path, typeflag) :: rest) =
          emitted_files o fopen_rb rest := by
        simp [emitted_files, hadm2]
      rw [hef] at hroom ⊢
      obtain ⟨g', hg', h1, h2, h3⟩ := ih g hroom
      exact ⟨g', by rw [visit_all, hr]; exact hg', h1, h2, h3⟩

/-- C8: over a sequence of visitor calls on a sink that takes every write in
full, the byte counter grows, modulo `2 ^ 64`, by exactly the number of bytes
appended to the output, and that number is the sum over the emitted files of
the lengths of begin prefix, path, begin suffix, content and end marker. -/
theorem bytes_written_exact (o : Options) (fopen_rb : CStr → Option (List Nat))
    (entries : List (CStr × TypeFlag)) (g : Globals)
    (hb : g.bytes_written < 2 ^ 64)
    (hroom : (frames (emitted_files o fopen_rb entries)).length ≤ g.room) :
    ∃ g' produced, visit_all o fopen_rb entries g = .ok () g' ∧
      g'.out = g.out ++ produced ∧
      g'.bytes_written = (g.bytes_written + produced.length) % 2 ^ 64 ∧
      produced.length =
        ((emitted_files o fopen_rb entries).map (fun f =>
          HEADER_PREFIX.length + f.1.length + HEADER_SUFFIX.length + f.2.length +
            FOOTER_LINE.length)).sum := by
  obtain ⟨g', hg', h1, h2, _⟩ := visit_all_fits o fopen_rb entries g hroom
  exact ⟨g', _, hg', h1, h2 hb, frames_length _⟩

theorem fwrite_refused (data : List Nat) (g : Globals) (hroom : g.room = 0) :
    fwrite data g = (0, g) := by
  cases g
  simp only at hroom
  subst hroom
  simp [fwrite]

theorem copy_loop_refused (size fuel : Nat) (input : List Nat) (g : Globals)
    (hroom : g.room = 0) (hsize : 0 < size) (hin : input ≠ []) :
    copy_loop size (fuel + 1) input g =
      .exit 1 { add_bytes 0 g with err := g.err ++ [Diag.write_error] } := by
  have hpos : 0 < input.length := List.length_pos.mpr hin
  have hn : (input.take size).length > 0 := by
    rw [List.length_take]; omega
  have hne : 0 ≠ (input.take size).length := by omega
  rw [copy_loop]
  simp only [hn, if_true, fwrite_refused _ g hroom, hne, ne_eq, not_false_eq_true]
  rfl

/-- A file with some content, on a sink with room for its begin marker only:
the run ends in `copy_stream` with status 1, after the begin marker. -/
theorem visit_all_abort (o : Options) (fopen_rb : CStr → Option (List Nat)) (path : CStr)
    (content : List Nat) (g : Globals) (hadm : admits o path .FTW_F = true)
    (hopen : fopen_rb path = some content) (hne : content ≠ [])
    (hroom : g.room = (HEADER_PREFIX ++ path ++ HEADER_SUFFIX).length) :
    visit_all o fopen_rb [(path, .FTW_F)] g =
      .exit 1 { add_bytes 0 (write_header path g) with
                err := (write_header path g).err ++ [Diag.write_error] } := by
  have hhdr := write_header_fits path g (le_of_eq hroom.symm)
  have hg' := copy_loop_refused BUF_SIZE content.length content (write_header path g)
    (by rw [hhdr, appended_room]; simp only []; omega) (by decide) hne
  rw [visit_all, visitor_admits_step _ _ _ _ _ hadm, hopen]
  simp only []
  unfold copy_stream
  rw [hg']

/-- C9, as stated, fails: when the sink has room for the begin marker only,
the call for the file `a.c`, whose content is larger than any buffer in front
of the sink, ends the run with status 1 in `copy_stream`; the output is a
begin marker without content or end marker, not the frame of the file, and no
file is counted. -/
theorem abort_leaves_partial_frame :
    emitted_files (optsExts ".c") fsBig [(cstr "a.c", .FTW_F)] = [(cstr "a.c", bigContent)] ∧
    ∃ g, visit_all (optsExts ".c") fsBig [(cstr "a.c", .FTW_F)] (initGlobals 58) = .exit 1 g ∧
      g.out = cstr "==================== BEGIN FILE: a.c ====================\n" ∧
      g.files_written = 0 ∧
      g.out ≠ frames (emitted_files (optsExts ".c") fsBig [(cstr "a.c", .FTW_F)]) := by
  have hadm : admits (optsExts ".c") (cstr "a.c") .FTW_F = true := by decide
  have hopen : fsBig (cstr "a.c") = some bigContent := if_pos rfl
  have hef : emitted_files (optsExts ".c") fsBig [(cstr "a.c", .FTW_F)] =
      [(cstr "a.c", bigContent)] := by
    simp only [emitted_files, hadm, if_true, hopen]
  have hbig : bigContent ≠ [] := by
    intro h
    have hl : bigContent.length = 4194304 := by rw [bigContent, List.length_replicate]
    rw [h] at hl
    exact absurd hl (by decide)
  have hhdr := write_header_fits (cstr "a.c") (initGlobals 58) (by decide)
  have hrun := visit_all_abort (optsExts ".c") fsBig (cstr "a.c") bigContent (initGlobals 58)
    hadm hopen hbig (by decide)
  have hout2 : (write_header (cstr "a.c") (initGlobals 58)).out =
      cstr "==================== BEGIN FILE: a.c ====================\n" := by
    rw [hhdr]; decide
  refine ⟨hef, _, hrun, hout2, ?_, ?_⟩
  · show (write_header (cstr "a.c") (initGlobals 58)).files_written = 0
    rw [hhdr]; rfl
  · show (write_header (cstr "a.c") (initGlobals 58)).out ≠ _
    rw [hef, hout2]
    intro h
    have hlen := congrArg List.length h
    have h1 : (cstr "==================== BEGIN FILE: a.c ====================\n").length = 58 := by
      decide
    have h2 : HEADER_PREFIX.length + (cstr "a.c").length + HEADER_SUFFIX.length = 58 := by
      decide
    have h3 : 0 < bigContent.length := List.length_pos.mpr hbig
    rw [frames, frames, List.append_nil, frame_length, h1] at hlen
    omega

/-- C9, amended: over a sequence of entries delivered to the visitor on a sink
that takes every write in full, all calls return, the output grows by the
concatenation, in delivery order, of one complete frame per admitted and
opened file, and the file counter grows, modulo `2 ^ 64`, by the number of
those frames. -/
theorem frames_in_order (o : Options) (fopen_rb : CStr → Option (List Nat))
    (entries : List (CStr × TypeFlag)) (g : Globals)
    (hf : g.files_written < 2 ^ 64)
    (hroom : (frames (emitted_files o fopen_rb entries)).length ≤ g.room) :
    ∃ g', visit_all o fopen_rb entries g = .ok () g' ∧
      g'.out = g.out ++ frames (emitted_files o fopen_rb entries) ∧
      g'.files_written =
        (g.files_written + (emitted_files o fopen_rb entries).length) % 2 ^ 64 := by
  obtain ⟨g', hg', h1, _, h3⟩ := visit_all_fits o fopen_rb entries g hroom
  exact ⟨g', hg', h1, h3 hf⟩

set_option maxRecDepth 100000 in
/-- C8 on three entries of which two are emitted. -/
theorem bytes_written_exact_witness :
    (initGlobals 1000).bytes_written < 2 ^ 64 ∧
    (frames (emitted_files (optsExts ".c") fsAll
      [(cstr "a.c", .FTW_F), (cstr "a.py", .FTW_F), (cstr "d/b.c", .FTW_F)])).length ≤
        (initGlobals 1000).room ∧
    ∃ g' produced, visit_all (optsExts ".c") fsAll
        [(cstr "a.c", .FTW_F), (cstr "a.py", .FTW_F), (cstr "d/b.c", .FTW_F)]
        (initGlobals 1000) = .ok () g' ∧
      g'.out = (initGlobals 1000).out ++ produced ∧
      g'.bytes_written = ((initGlobals 1000).bytes_written + produced.length) % 2 ^ 64 ∧
      produced.length =
        ((emitted_files (optsExts ".c") fsAll
          [(cstr "a.c", .FTW_F), (cstr "a.py", .FTW_F), (cstr "d/b.c", .FTW_F)]).map (fun f =>
          HEADER_PREFIX.length + f.1.length + HEADER_SUFFIX.length + f.2.length +
            FOOTER_LINE.length)).sum :=
  ⟨by decide, by decide,
   bytes_written_exact (optsExts ".c") fsAll
     [(cstr "a.c", .FTW_F), (cstr "a.py", .FTW_F), (cstr "d/b.c", .FTW_F)] (initGlobals 1000)
     (by decide) (by decide)⟩

set_option maxRecDepth 100000 in
/-- C9, amended, on a directory entry, an unopenable file and an emitted
file. -/
theorem frames_in_order_witness :
    (initGlobals 1000).files_written < 2 ^ 64 ∧
    (frames (emitted_files (optsExts ".c") (fsOnly [120, 10])
      [(cstr "d", .FTW_D), (cstr "locked.c", .FTW_F), (cstr "a.c", .FTW_F)])).length ≤
        (initGlobals 1000).room ∧
    ∃ g', visit_all (optsExts ".c") (fsOnly [120, 10])
        [(cstr "d", .FTW_D), (cstr "locked.c", .FTW_F), (cstr "a.c", .FTW_F)]
        (initGlobals 1000) = .ok () g' ∧
      g'.out = (initGlobals 1000).out ++ frames (emitted_files (optsExts ".c") (fsOnly [120, 10])
        [(cstr "d", .FTW_D), (cstr "locked.c", .FTW_F), (cstr "a.c", .FTW_F)]) ∧
      g'.files_written = ((initGlobals 1000).files_written +
        (emitted_files (optsExts ".c") (fsOnly [120, 10])
          [(cstr "d", .FTW_D), (cstr "locked.c", .FTW_F), (cstr "a.c", .FTW_F)]).length) % 2 ^ 64 :=
  ⟨by decide, by decide,
   frames_in_order (optsExts ".c") (fsOnly [120, 10])
     [(cstr "d", .FTW_D), (cstr "locked.c", .FTW_F), (cstr "a.c", .FTW_F)] (initGlobals 1000)
     (by decide) (by decide)⟩

/-! ## The tree walk: results -/

theorem main_flags_no_actionretval (o : Options) : (main_flags o).testBit 4 = false := by
  unfold main_flags
  cases o.follow_symlinks <;> decide

set_option maxRecDepth 100000 in
/-- C1, the code at a failing input: on Scenario B with `.git` listed before
`src`, with the default options and every file readable, the walk as `main`
runs it returns `FTW_SKIP_SUBTREE` at `.git` with nothing emitted, although
`proj/src/main.c` is an admitted file outside every pruned directory. -/
theorem walk_stops_at_pruned_dir :
    main_walk defaultOptions fsAll scenarioB 1000 = .ok FTW_SKIP_SUBTREE (initGlobals 1000) ∧
    should_skip_dir defaultOptions (cstr "proj") = false ∧
    should_skip_dir defaultOptions (cstr "proj/src") = false ∧
    should_skip_dir defaultOptions (cstr "proj/.git") = true ∧
    admits defaultOptions (cstr "proj/src/main.c") .FTW_F = true := by
  decide

set_option maxRecDepth 100000 in
/-- The same walk with `FTW_ACTIONRETVAL` added to the flags skips `.git` only
and emits `proj/src/main.c`. -/
theorem walk_with_actionretval :
    (nftw (visitor defaultOptions fsAll) (FTW_PHYS ||| FTW_ACTIONRETVAL) scenarioB
      (initGlobals 1000)).globals.out = frame (cstr "proj/src/main.c") [120] := by
  decide

theorem visitor_dir (o : Options) (fopen_rb : CStr → Option (List Nat)) (path : CStr)
    (readable : Bool) (g : Globals) :
    visitor o fopen_rb path (if readable then .FTW_D else .FTW_DNR) g =
      .ok (if should_skip_dir o path then FTW_SKIP_SUBTREE else 0) g := by
  unfold visitor
  cases readable <;> cases should_skip_dir o path <;> simp

mutual
theorem beneath_skipped_subset (o : Options) :
    ∀ (t : Tree) (path : CStr) (p : CStr), p ∈ beneath_skipped o path t → p ∈ all_paths path t
  | .leaf _ _, path, p, hp => by simp [beneath_skipped] at hp
  | .dir _ _ children, path, p, hp => by
    rw [all_paths]
    rw [beneath_skipped] at hp
    by_cases hs : should_skip_dir o path = true
    · rw [if_pos hs] at hp
      exact List.mem_cons_of_mem _ hp
    · rw [if_neg hs] at hp
      exact List.mem_cons_of_mem _ (beneath_skipped_list_subset o children path p hp)
theorem beneath_skipped_list_subset (o : Options) :
    ∀ (ts : List Tree) (dir : CStr) (p : CStr),
      p ∈ beneath_skipped_list o dir ts → p ∈ all_paths_list dir ts
  | [], dir, p, hp => by simp [beneath_skipped_list] at hp
  | t :: rest, dir, p, hp => by
    rw [all_paths_list]
    rw [beneath_skipped_list] at hp
    rcases List.mem_append.mp hp with h | h
    · exact List.mem_append_left _ (beneath_skipped_subset o t _ p h)
    · exact List.mem_append_right _ (beneath_skipped_list_subset o rest dir p h)
end

mutual
/-- Invariant of the walk at an entry whose paths are pairwise distinct: every
path it adds to the emitted files is a path of the entry's subtree that does
not lie beneath a skipped directory. -/
theorem nftw_entry_emitted (o : Options) (fopen_rb : CStr → Option (List Nat)) (flags : Nat) :
    ∀ (t : Tree) (path : CStr) (g : Globals), (all_paths path t).Nodup →
      ∀ p ∈ (nftw_entry (visitor o fopen_rb) flags path t g).globals.emitted,
        p ∈ g.emitted ∨ (p ∈ all_paths path t ∧ p ∉ beneath_skipped o path t)
  | .leaf name typeflag, path, g, _, p, hp => by
    have hg : (nftw_entry (visitor o fopen_rb) flags path (.leaf name typeflag) g).globals =
        (visitor o fopen_rb path typeflag g).globals := by
      rw [nftw_entry]
      cases visitor o fopen_rb path typeflag g with
      | exit status g1 => rfl
      | ok r g1 => simp only []; split_ifs <;> rfl
    rw [hg, visitor_emitted] at hp
    split_ifs at hp
    · rcases List.mem_append.mp hp with h | h
      · exact Or.inl h
      · right
        simp only [List.mem_singleton] at h
        simp [all_paths, beneath_skipped, h]
    · exact Or.inl hp
  | .dir name readable children, path, g, hnd, p, hp => by
    rw [nftw_entry, visitor_dir] at hp
    simp only [] at hp
    by_cases hs : should_skip_dir o path = true
    · simp only [hs, if_true] at hp
      have hne : FTW_SKIP_SUBTREE ≠ 0 := by decide
      simp only [ne_eq, hne, not_false_eq_true, if_true] at hp
      left
      split_ifs at hp <;> exact hp
    · simp only [hs, Bool.false_eq_true, if_false, ne_eq, not_true_eq_false] at hp
      rw [all_paths, List.nodup_cons] at hnd
      cases hr : readable with
      | false =>
        simp only [hr, Bool.false_eq_true, if_false] at hp
        exact Or.inl hp
      | true =>
        simp only [hr, if_true] at hp
        rcases nftw_list_emitted o fopen_rb flags children path g hnd.2 p hp with h | h
        · exact Or.inl h
        · right
          rw [all_paths, beneath_skipped, if_neg hs]
          exact ⟨List.mem_cons_of_mem _ h.1, h.2⟩
/-- The same invariant over the listing of a directory. -/
theorem nftw_list_emitted (o : Options) (fopen_rb : CStr → Option (List Nat)) (flags : Nat) :
    ∀ (ts : List Tree) (dir : CStr) (g : Globals), (all_paths_list dir ts).Nodup →
      ∀ p ∈ (nftw_list (visitor o fopen_rb) flags dir ts g).globals.emitted,
        p ∈ g.emitted ∨ (p ∈ all_paths_list dir ts ∧ p ∉ beneath_skipped_list o dir ts)
  | [], dir, g, _, p, hp => by
    rw [nftw_list] at hp
    exact Or.inl hp
  | t :: rest, dir, g, hnd, p, hp => by
    rw [all_paths_list, List.nodup_append] at hnd
    obtain ⟨hnd1, hnd2, hdisj⟩ := hnd
    have hfirst := nftw_entry_emitted o fopen_rb flags t (child_path dir t.name) g hnd1 p
    have from_first : p ∈ g.emitted ∨ (p ∈ all_paths (child_path dir t.name) t ∧
          p ∉ beneath_skipped o (child_path dir t.name) t) →
        p ∈ g.emitted ∨ (p ∈ all_paths_list dir (t :: rest) ∧
          p ∉ beneath_skipped_list o dir (t :: rest)) := by
      rintro (h | ⟨h1, h2⟩)
      · exact Or.inl h
      · right
        rw [all_paths_list, beneath_skipped_list]
        refine ⟨List.mem_append_left _ h1, ?_⟩
        intro hmem
        rcases List.mem_append.mp hmem with h | h
        · exact h2 h
        · exact hdisj h1 (beneath_skipped_list_subset o rest dir p h)
    rw [nftw_list] at hp
    cases hres : nftw_entry (visitor o fopen_rb) flags (child_path dir t.name) t g with
    | exit status g1 =>
      rw [hres] at hp hfirst
      exact from_first (hfirst hp)
    | ok r g1 =>
      rw [hres] at hp hfirst
      simp only [] at hp
      by_cases hr : r ≠ 0
      · rw [if_pos hr] at hp
        apply from_first
        apply hfirst
        split_ifs at hp <;> exact hp
      · rw [if_neg hr] at hp
        rcases nftw_list_emitted o fopen_rb flags rest dir g1 hnd2 p hp with h | ⟨h1, h2⟩
        · exact from_first (hfirst h)
        · right
          rw [all_paths_list, beneath_skipped_list]
          refine ⟨List.mem_append_right _ h1, ?_⟩
          intro hmem
          rcases List.mem_append.mp hmem with h | h
          · exact hdisj (beneath_skipped_subset o t _ p h) h1
          · exact h2 h
end

set_option maxRecDepth 100000 in
/-- C2, as stated, fails: on Scenario B with `.git` listed last, when the
content of `proj/src/main.c` is the text of the begin marker of
`proj/.git/config.c`, the output holds that begin marker, whose path lies
beneath the skipped directory `proj/.git`, between the begin marker and the
end marker of `proj/src/main.c`. -/
theorem marker_text_in_output :
    should_skip_dir defaultOptions (cstr "proj/.git") = true ∧
    cstr "proj/.git/config.c" ∈
      beneath_skipped defaultOptions scenarioB_last.name scenarioB_last ∧
    (main_walk defaultOptions fsMarker scenarioB_last 1000).globals.out =
      cstr "==================== BEGIN FILE: proj/src/main.c ====================\n" ++
      cstr "==================== BEGIN FILE: proj/.git/config.c ====================\n" ++
      cstr "\n===================== END FILE =====================\n\n" ∧
    (main_walk defaultOptions fsMarker scenarioB_last 1000).globals.emitted =
      [cstr "proj/src/main.c"] := by
  decide

/-- C2, amended: in a tree whose entries have pairwise distinct paths, no entry
located beneath a directory for which `should_skip_dir` holds is emitted by
the walk as `main` runs it: `write_header` is never called with its path, so
no begin marker is issued for it. -/
theorem pruned_never_emitted (o : Options) (fopen_rb : CStr → Option (List Nat))
    (root : Tree) (room : Nat) (hnd : (all_paths root.name root).Nodup) (p : CStr)
    (hp : p ∈ beneath_skipped o root.name root) :
    p ∉ (main_walk o fopen_rb root room).globals.emitted := by
  intro hem
  have hg : (main_walk o fopen_rb root room).globals =
      (nftw_entry (visitor o fopen_rb) (main_flags o) root.name root (initGlobals room)).globals := by
    unfold main_walk nftw
    cases nftw_entry (visitor o fopen_rb) (main_flags o) root.name root (initGlobals room) with
    | exit status g1 => rfl
    | ok r g1 => simp only []; split_ifs <;> rfl
  rw [hg] at hem
  rcases nftw_entry_emitted o fopen_rb (main_flags o) root root.name (initGlobals room) hnd p hem
    with h | h
  · simp [initGlobals] at h
  · exact h.2 hp

set_option maxRecDepth 100000 in
/-- C2 on Scenario B with `.git` listed last: `proj/src/main.c` is emitted and
`proj/.git/config.c` is not. -/
theorem pruned_never_emitted_witness :
    (all_paths scenarioB_last.name scenarioB_last).Nodup ∧
    cstr "proj/.git/config.c" ∈ beneath_skipped defaultOptions scenarioB_last.name scenarioB_last ∧
    cstr "proj/.git/config.c" ∉ (main_walk defaultOptions fsAll scenarioB_last 1000).globals.emitted ∧
    (main_walk defaultOptions fsAll scenarioB_last 1000).globals.emitted = [cstr "proj/src/main.c"] :=
  ⟨by decide, by decide,
   pruned_never_emitted defaultOptions fsAll scenarioB_last 1000 (by decide)
     (cstr "proj/.git/config.c") (by decide), by decide⟩

/-! ## Lemmas: the names of a list are its segments -/

theorem fields_eq_splitOn (csv : CStr) : fields csv = csv.splitOn COMMA := by
  induction csv with
  | nil => rfl
  | cons c t ih =>
    obtain ⟨f, fs, hf⟩ : ∃ f fs, fields t = f :: fs := ⟨_, _, fields_eq t⟩
    rw [List.splitOn, List.splitOnP_cons, ← List.splitOn, ← ih, fields, hf]
    by_cases h : c = COMMA
    · simp [h]
    · simp [h]

theorem dropWhile_before_comma (p rest : CStr) :
    (p ++ COMMA :: rest).dropWhile (fun c => decide (c ≠ COMMA)) =
      p.dropWhile (fun c => decide (c ≠ COMMA)) ++ COMMA :: rest := by
  induction p with
  | nil => simp [List.dropWhile_cons]
  | cons x r ih =>
    by_cases hx : x = COMMA
    · simp [List.dropWhile_cons, hx]
    · simpa [List.dropWhile_cons, hx] using ih

theorem takeWhile_segment (e post : CStr) (hcf : COMMA ∉ e)
    (hpost : post = [] ∨ ∃ q, post = COMMA :: q) :
    (e ++ post).takeWhile (fun c => decide (c ≠ COMMA)) = e := by
  have hall : ∀ a ∈ e, (fun c => decide (c ≠ COMMA)) a = true := by
    intro a ha
    have : a ≠ COMMA := fun h => hcf (h ▸ ha)
    simp [this]
  rw [List.takeWhile_append_of_pos hall]
  rcases hpost with h | ⟨q, h⟩
  · simp [h]
  · simp [h, List.takeWhile_cons]

theorem takeWhile_no_comma (l : CStr) :
    COMMA ∉ l.takeWhile (fun c => decide (c ≠ COMMA)) := by
  intro h
  have := List.mem_takeWhile_imp h
  simp at this

theorem dropWhile_nil_or_comma (l : CStr) :
    l.dropWhile (fun c => decide (c ≠ COMMA)) = [] ∨
      ∃ q, l.dropWhile (fun c => decide (c ≠ COMMA)) = COMMA :: q := by
  induction l with
  | nil => left; rfl
  | cons x r ih =>
    by_cases hx : x = COMMA
    · right; exact ⟨r, by simp [List.dropWhile_cons, hx]⟩
    · simpa [List.dropWhile_cons, hx] using ih

theorem not_segment_nil (e : CStr) : ¬ is_segment [] e := by
  rintro ⟨hne, _, pre, post, h, _, _⟩
  have h2 := congrArg List.length h
  simp only [List.length_nil, List.length_append] at h2
  have : e.length = 0 := by omega
  exact hne (List.length_eq_zero.mp this)

theorem segment_comma_cons (t e : CStr) : is_segment (COMMA :: t) e ↔ is_segment t e := by
  constructor
  · rintro ⟨hne, hcf, pre, post, h, hpre, hpost⟩
    refine ⟨hne, hcf, ?_⟩
    rcases hpre with hp | ⟨p, hp⟩
    · subst hp
      exfalso
      cases e with
      | nil => exact hne rfl
      | cons x r =>
        simp only [List.nil_append, List.cons_append, List.cons.injEq] at h
        exact hcf (by rw [h.1]; exact List.mem_cons_self _ _)
    · subst hp
      cases p with
      | nil =>
        simp only [List.nil_append, List.cons_append, List.cons.injEq, true_and] at h
        exact ⟨[], post, by simpa using h, Or.inl rfl, hpost⟩
      | cons x p' =>
        simp only [List.cons_append, List.cons.injEq] at h
        exact ⟨p' ++ [COMMA], post, by simpa using h.2, Or.inr ⟨p', rfl⟩, hpost⟩
  · rintro ⟨hne, hcf, pre, post, h, hpre, hpost⟩
    refine ⟨hne, hcf, COMMA :: pre, post, by simp [h], ?_, hpost⟩
    right
    rcases hpre with hp | ⟨p, hp⟩
    · exact ⟨[], by simp [hp]⟩
    · exact ⟨COMMA :: p, by simp [hp]⟩


theorem segment_cons (c : Nat) (t e : CStr) (hc : c ≠ COMMA) :
    is_segment (c :: t) e ↔
      e = (c :: t).takeWhile (fun c => decide (c ≠ COMMA)) ∨
      is_segment ((c :: t).dropWhile (fun c => decide (c ≠ COMMA))) e := by
  have hsplit := List.takeWhile_append_dropWhile (fun c => decide (c ≠ COMMA)) (c :: t)
  have htw_ne : (c :: t).takeWhile (fun c => decide (c ≠ COMMA)) ≠ [] := by
    simp [List.takeWhile_cons, hc]
  constructor
  · rintro ⟨hne, hcf, pre, post, h, hpre, hpost⟩
    rcases hpre with hp | ⟨p, hp⟩
    · left
      subst hp
      rw [h, List.nil_append, takeWhile_segment e post hcf hpost]
    · right
      subst hp
      refine ⟨hne, hcf, p.dropWhile (fun c => decide (c ≠ COMMA)) ++ [COMMA], post, ?_,
        Or.inr ⟨_, rfl⟩, hpost⟩
      rw [h]
      have := dropWhile_before_comma p (e ++ post)
      simp only [List.append_assoc, List.singleton_append] at this ⊢
      exact this
  · rintro (he | ⟨hne, hcf, pre, post, h, hpre, hpost⟩)
    · subst he
      exact ⟨htw_ne, takeWhile_no_comma _, [],
        (c :: t).dropWhile (fun c => decide (c ≠ COMMA)),
        by rw [List.nil_append]; exact hsplit.symm, Or.inl rfl, dropWhile_nil_or_comma _⟩
    · refine ⟨hne, hcf, (c :: t).takeWhile (fun c => decide (c ≠ COMMA)) ++ pre, post, ?_, ?_,
        hpost⟩
      · conv_lhs => rw [← hsplit, h]
        simp only [List.append_assoc]
      · right
        rcases hpre with hp | ⟨p, hp⟩
        · exfalso
          subst hp
          rcases dropWhile_nil_or_comma (c :: t) with hd | ⟨q, hd⟩
          · rw [hd] at h
            have h2 := congrArg List.length h
            simp only [List.length_nil, List.length_append] at h2
            have : e.length = 0 := by omega
            exact hne (List.length_eq_zero.mp this)
          · rw [hd] at h
            cases e with
            | nil => exact hne rfl
            | cons x r =>
              simp only [List.nil_append, List.cons_append, List.cons.injEq] at h
              exact hcf (by rw [← h.1]; exact List.mem_cons_self _ _)
        · exact ⟨(c :: t).takeWhile (fun c => decide (c ≠ COMMA)) ++ p, by simp [hp]⟩

/-- The names of a comma-separated list are exactly its segments. -/
theorem mem_names_iff (e : CStr) :
    ∀ (n : Nat) (csv : CStr), csv.length ≤ n → (e ∈ names csv ↔ is_segment csv e) := by
  intro n
  induction n with
  | zero =>
    intro csv h
    have : csv = [] := List.length_eq_zero.mp (by omega)
    subst this
    simp [names_nil, not_segment_nil]
  | succ n ih =>
    intro csv h
    cases csv with
    | nil => simp [names_nil, not_segment_nil]
    | cons c t =>
      by_cases hc : c = COMMA
      · subst hc
        rw [names_comma, segment_comma_cons]
        exact ih t (by simp only [List.length_cons] at h; omega)
      · have hlt := scan_item_length_lt c t hc
        rw [names_cons c t hc, segment_cons c t e hc, List.mem_cons, ← scan_item_eq]
        rw [ih (scan_item (c :: t)) (by omega)]

theorem nil_not_mem_names (csv : CStr) : [] ∉ names csv := by
  intro h
  exact ((mem_names_iff [] csv.length csv (Nat.le_refl _)).mp h).1 rfl

theorem comma_not_mem_of_mem_names (csv e : CStr) (h : e ∈ names csv) : COMMA ∉ e :=
  ((mem_names_iff e csv.length csv (Nat.le_refl _)).mp h).2.1


theorem same_name_nonempty (ci : Bool) (e needle : CStr) (h : same_name ci e needle)
    (hne : e ≠ []) : needle ≠ [] := by
  intro hn
  subst hn
  cases ci with
  | true =>
    simp only [same_name, if_true, List.map_nil, List.map_eq_nil_iff] at h
    exact hne h
  | false =>
    simp only [same_name, Bool.false_eq_true, if_false] at h
    exact hne h

theorem same_name_no_comma (ci : Bool) (e needle : CStr) (h : same_name ci e needle)
    (hcf : COMMA ∉ e) : COMMA ∉ needle := by
  intro hn
  cases ci with
  | true =>
    simp only [same_name, if_true] at h
    have h1 : lower COMMA ∈ needle.map lower := List.mem_map_of_mem lower hn
    rw [← h, (lower_eq_comma COMMA).mpr rfl] at h1
    obtain ⟨x, hx, hlx⟩ := List.mem_map.mp h1
    rw [(lower_eq_comma x).mp hlx] at hx
    exact hcf hx
  | false =>
    simp only [same_name, Bool.false_eq_true, if_false] at h
    rw [h] at hcf
    exact hcf hn

theorem str_list_contains_false_of (csv needle : CStr) (ci : Bool)
    (h : ∀ e ∈ names csv, ¬ same_name ci e needle) :
    str_list_contains (some csv) (some needle) ci = false := by
  cases hres : str_list_contains (some csv) (some needle) ci with
  | false => rfl
  | true =>
    obtain ⟨e, he, hs⟩ := (str_list_contains_iff csv needle ci).mp hres
    exact absurd hs (h e he)

/-! ## The list lookup: result -/

/-- C19: `str_list_contains` does not depend on the bound on its iterations
once the bound exceeds the length of the list, so its loop always ends; it
returns true exactly when the needle equals, byte for byte or after
lower-casing both sides when the flag is set, one of the non-empty maximal
comma-free segments of the list.  Empty segments do not count (`,,a,,b,`
behaves as `a,b`), and neither the empty needle nor a needle with a comma is
ever contained. -/
theorem str_list_contains_segments (csv needle : CStr) (ci : Bool) :
    (∀ fuel, csv.length < fuel →
      str_list_loop needle ci fuel csv = str_list_contains (some csv) (some needle) ci) ∧
    (str_list_contains (some csv) (some needle) ci = true ↔
      ∃ e, is_segment csv e ∧ same_name ci e needle) ∧
    str_list_contains (some (cstr ",,a,,b,")) (some needle) ci =
      str_list_contains (some (cstr "a,b")) (some needle) ci ∧
    (needle = [] → str_list_contains (some csv) (some needle) ci = false) ∧
    (COMMA ∈ needle → str_list_contains (some csv) (some needle) ci = false) := by
  refine ⟨?_, ?_, ?_, ?_, ?_⟩
  · intro fuel hfuel
    rw [Bool.eq_iff_iff, str_list_loop_iff needle ci fuel csv hfuel, str_list_contains_iff]
  · rw [str_list_contains_iff]
    constructor
    · rintro ⟨e, he, hs⟩
      exact ⟨e, (mem_names_iff e csv.length csv (Nat.le_refl _)).mp he, hs⟩
    · rintro ⟨e, he, hs⟩
      exact ⟨e, (mem_names_iff e csv.length csv (Nat.le_refl _)).mpr he, hs⟩
  · have hn : names (cstr ",,a,,b,") = names (cstr "a,b") := by decide
    rw [Bool.eq_iff_iff, str_list_contains_iff, str_list_contains_iff, hn]
  · intro hn
    apply str_list_contains_false_of
    intro e he hs
    exact same_name_nonempty ci e needle hs (fun h => nil_not_mem_names csv (h ▸ he)) hn
  · intro hn
    apply str_list_contains_false_of
    intro e he hs
    exact same_name_no_comma ci e needle hs (comma_not_mem_of_mem_names csv e he) hn

/-- C19 on the list `,,a,,b,`: its segments are `a` and `b`; `B` is found
only with the case flag, and the empty needle and `a,,b` are not found. -/
theorem str_list_contains_segments_witness :
    (cstr ",,a,,b,").length < 100 ∧
    str_list_loop (cstr "B") true 100 (cstr ",,a,,b,") =
      str_list_contains (some (cstr ",,a,,b,")) (some (cstr "B")) true ∧
    str_list_contains (some (cstr ",,a,,b,")) (some (cstr "B")) true = true ∧
    str_list_contains (some (cstr ",,a,,b,")) (some (cstr "B")) false = false ∧
    str_list_contains (some (cstr ",,a,,b,")) (some []) true = false ∧
    str_list_contains (some (cstr ",,a,,b,")) (some (cstr "a,,b")) false = false :=
  ⟨by decide,
   (str_list_contains_segments (cstr ",,a,,b,") (cstr "B") true).1 100 (by decide),
   by decide, by decide,
   (str_list_contains_segments (cstr ",,a,,b,") [] true).2.2.2.1 rfl,
   (str_list_contains_segments (cstr ",,a,,b,") (cstr "a,,b") false).2.2.2.2 (by decide)⟩


/-! ## The matcher: list entries without a leading dot -/

theorem lower_eq_dot (c : Nat) : lower c = DOT ↔ c = DOT := by
  unfold lower DOT; split_ifs <;> omega

theorem path_extension_head (path : CStr) (h : path_extension path ≠ []) :
    (path_extension path).head? = some DOT := by
  rw [path_extension_eq] at h ⊢
  by_cases hd : DOT ∈ final_component path
  · simp [hd]
  · simp [hd] at h

theorem head_of_map_lower_eq (e ext : CStr) (h : e.map lower = ext.map lower)
    (hext : ext.head? = some DOT) : e.head? = some DOT := by
  cases ext with
  | nil => simp at hext
  | cons x r =>
    cases e with
    | nil => simp at h
    | cons y s =>
      simp only [List.head?_cons, Option.some.injEq] at hext
      simp only [List.map_cons, List.cons.injEq] at h
      subst hext
      rw [(lower_eq_dot DOT).mpr rfl] at h
      simp [(lower_eq_dot y).mp h.1]

/-- Only the names of the extension list that begin with a dot take part in
the decision of `has_allowed_ext`. -/
theorem has_allowed_ext_dotted (o : Options) (path : CStr) :
    has_allowed_ext o path = true ↔
      path_extension path ≠ [] ∧ (path_extension path).length < 64 ∧
      ∃ e ∈ (names o.exts).filter (fun e => decide (e.head? = some DOT)),
        e.map lower = (path_extension path).map lower := by
  rw [has_allowed_ext_core]
  constructor
  · rintro ⟨hne, hlen, e, he, hm⟩
    refine ⟨hne, hlen, e, ?_, hm⟩
    rw [List.mem_filter]
    exact ⟨he, by simpa using head_of_map_lower_eq e _ hm (path_extension_head path hne)⟩
  · rintro ⟨hne, hlen, e, he, hm⟩
    exact ⟨hne, hlen, e, (List.mem_filter.mp he).1, hm⟩

/-- C18: an entry of the extension list that does not begin with a dot never
causes a match.  A list none of whose names begins with a dot accepts no path,
and a list whose names are those names of another list that begin with a dot
accepts exactly the same paths as that list. -/
theorem dotless_entries_never_match (o o' : Options) (path : CStr) :
    ((∀ e ∈ names o.exts, e.head? ≠ some DOT) → has_allowed_ext o path = false) ∧
    (names o'.exts = (names o.exts).filter (fun e => decide (e.head? = some DOT)) →
      has_allowed_ext o' path = has_allowed_ext o path) := by
  constructor
  · intro hall
    cases hres : has_allowed_ext o path with
    | false => rfl
    | true =>
      obtain ⟨_, _, e, he, _⟩ := (has_allowed_ext_dotted o path).mp hres
      rw [List.mem_filter] at he
      exact absurd (by simpa using he.2) (hall e he.1)
  · intro hn
    rw [Bool.eq_iff_iff, has_allowed_ext_dotted o path, has_allowed_ext_dotted o' path, hn,
      List.filter_filter]
    simp only [Bool.and_self]

/-- C18 on the lists `c,h` and `c,.h,h,.C`: the first accepts neither `a.c`
nor `a.h`; the second accepts what `.h,.C` accepts. -/
theorem dotless_entries_never_match_witness :
    (∀ e ∈ names (optsExts "c,h").exts, e.head? ≠ some DOT) ∧
    has_allowed_ext (optsExts "c,h") (cstr "a.c") = false ∧
    names (optsExts ".h,.C").exts =
      (names (optsExts "c,.h,h,.C").exts).filter (fun e => decide (e.head? = some DOT)) ∧
    has_allowed_ext (optsExts ".h,.C") (cstr "src/a.c") =
      has_allowed_ext (optsExts "c,.h,h,.C") (cstr "src/a.c") ∧
    has_allowed_ext (optsExts "c,.h,h,.C") (cstr "src/a.c") = true :=
  ⟨by decide,
   (dotless_entries_never_match (optsExts "c,h") (optsExts "c,h") (cstr "a.c")).1 (by decide),
   by decide,
   (dotless_entries_never_match (optsExts "c,.h,h,.C") (optsExts ".h,.C") (cstr "src/a.c")).2
     (by decide),
   by decide⟩


/-! ## The buffer of `has_allowed_ext`: result -/

theorem fill_buf_eq : ∀ (ext pre mid post : List Nat), mid.length = ext.length →
    fill_buf ext pre.length (pre ++ mid ++ post) = some (pre ++ ext.map lower ++ post) := by
  intro ext
  induction ext with
  | nil =>
    intro pre mid post h
    have : mid = [] := List.length_eq_zero.mp h
    subst this
    simp [fill_buf]
  | cons c rest ih =>
    intro pre mid post h
    cases mid with
    | nil => simp at h
    | cons m mid' =>
      simp only [List.length_cons, Nat.add_right_cancel_iff] at h
      have hst : buf_store (pre ++ (m :: mid') ++ post) pre.length (lower c) =
          some ((pre ++ [lower c]) ++ mid' ++ post) := by
        unfold buf_store
        have hlt : pre.length < (pre ++ (m :: mid') ++ post).length := by
          simp only [List.length_append, List.length_cons]; omega
        rw [if_pos hlt]
        simp [List.append_assoc]
      have hih := ih (pre ++ [lower c]) mid' post h
      simp only [List.length_append, List.length_singleton] at hih
      rw [fill_buf, hst]
      simp only []
      rw [hih]
      simp [List.append_assoc]

theorem has_allowed_ext_buf_eq (o : Options) (buf0 : List Nat) (path : CStr)
    (hbuf : buf0.length = 64) :
    has_allowed_ext_buf o buf0 path = some (has_allowed_ext o path) := by
  unfold has_allowed_ext_buf has_allowed_ext
  cases hext : path_extension path with
  | nil => rfl
  | cons c t =>
    simp only []
    by_cases hlen : (c :: t).length ≥ 64
    · simp only [hlen, if_true]
    · simp only [hlen, if_false]
      have hle : (c :: t).length ≤ buf0.length := by omega
      have hfill := fill_buf_eq (c :: t) [] (buf0.take (c :: t).length)
        (buf0.drop (c :: t).length) (by rw [List.length_take]; omega)
      simp only [List.nil_append, List.take_append_drop, List.length_nil] at hfill
      rw [hfill]
      simp only []
      have hst : buf_store ((c :: t).map lower ++ buf0.drop (c :: t).length) (c :: t).length 0 =
          some ((c :: t).map lower ++ (buf0.drop (c :: t).length).set 0 0) := by
        unfold buf_store
        have hlt : (c :: t).length <
            ((c :: t).map lower ++ buf0.drop (c :: t).length).length := by
          simp only [List.length_append, List.length_map, List.length_drop]; omega
        rw [if_pos hlt]
        congr 1
        simp
      rw [hst]
      simp only []
      have htake : ((c :: t).map lower ++ (buf0.drop (c :: t).length).set 0 0).take
          (c :: t).length = (c :: t).map lower :=
        List.take_left' (by simp)
      rw [htake]


/-- C11: a path whose extension, dot included, is longer than 63 bytes is
rejected by `has_allowed_ext` whatever the extension list holds; and for every
path, every store into the 64-byte array, the terminator at `buf[elen]`
included, falls inside the array, the function with the array explicit
returning what `has_allowed_ext` returns. -/
theorem has_allowed_ext_buffer (o : Options) (path : CStr) (buf0 : List Nat)
    (hbuf : buf0.length = 64) :
    (63 < (path_extension path).length → has_allowed_ext o path = false) ∧
    has_allowed_ext_buf o buf0 path = some (has_allowed_ext o path) := by
  refine ⟨?_, has_allowed_ext_buf_eq o buf0 path hbuf⟩
  intro hlong
  cases hres : has_allowed_ext o path with
  | false => rfl
  | true =>
    obtain ⟨_, hlen, _⟩ := (has_allowed_ext_core o path).mp hres
    omega

set_option maxRecDepth 100000 in
/-- C11 at the bound: an extension of 64 bytes is rejected although the list
holds exactly it, an extension of 63 bytes fills the array up to its last
index and is accepted. -/
theorem has_allowed_ext_buffer_witness :
    (List.replicate 64 7).length = 64 ∧
    63 < (path_extension (longExtPath 63)).length ∧
    (longExtOpts 63).exts = path_extension (longExtPath 63) ∧
    has_allowed_ext (longExtOpts 63) (longExtPath 63) = false ∧
    has_allowed_ext_buf (longExtOpts 62) (List.replicate 64 7) (longExtPath 62) =
      some (has_allowed_ext (longExtOpts 62) (longExtPath 62)) ∧
    has_allowed_ext (longExtOpts 62) (longExtPath 62) = true :=
  ⟨by decide, by decide, by decide,
   (has_allowed_ext_buffer (longExtOpts 63) (longExtPath 63) (List.replicate 64 7)
      (by decide)).1 (by decide),
   (has_allowed_ext_buffer (longExtOpts 62) (longExtPath 62) (List.replicate 64 7)
      (by decide)).2,
   by decide⟩


/-! ## Lemmas: the diagnostic stream does not steer the run -/

theorem fwrite_with_diag (e : List Diag) (data : List Nat) (g : Globals) :
    fwrite data (with_diag e g) = ((fwrite data g).1, with_diag e (fwrite data g).2) := rfl

theorem add_bytes_with_diag (e : List Diag) (n : Nat) (g : Globals) :
    add_bytes n (with_diag e g) = with_diag e (add_bytes n g) := rfl

theorem write_header_with_diag (e : List Diag) (path : CStr) (g : Globals) :
    write_header path (with_diag e g) = with_diag e (write_header path g) := rfl

theorem write_footer_with_diag (e : List Diag) (g : Globals) :
    write_footer (with_diag e g) = with_diag e (write_footer g) := rfl

theorem copy_loop_with_diag (e : List Diag) (size : Nat) :
    ∀ (fuel : Nat) (input : List Nat) (g : Globals),
      copy_loop size fuel input (with_diag e g) = (copy_loop size fuel input g).with_diag e := by
  intro fuel
  induction fuel with
  | zero => intro input g; rfl
  | succ fuel ih =>
    intro input g
    rw [copy_loop, copy_loop]
    by_cases hn : (input.take size).length > 0
    · simp only [hn, if_true, fwrite_with_diag, add_bytes_with_diag]
      by_cases hw : (fwrite (input.take size) g).1 ≠ (input.take size).length
      · simp only [hw, ne_eq, not_false_eq_true, if_true, Res.with_diag, with_diag,
          List.append_assoc]
      · simp only [hw, if_false]
        exact ih _ _
    · simp only [hn, if_false, Res.with_diag]

theorem visitor_with_diag (o : Options) (fopen_rb : CStr → Option (List Nat)) (e : List Diag)
    (path : CStr) (typeflag : TypeFlag) (g : Globals) :
    visitor o fopen_rb path typeflag (with_diag e g) =
      (visitor o fopen_rb path typeflag g).with_diag e := by
  unfold visitor
  split_ifs
  · rfl
  · rfl
  · rfl
  · rfl
  · rfl
  · cases fopen_rb path with
    | none => simp only [Res.with_diag, with_diag, List.append_assoc]
    | some input =>
      simp only [write_header_with_diag]
      unfold copy_stream
      rw [copy_loop_with_diag]
      cases copy_loop BUF_SIZE (input.length + 1) input (write_header path g) with
      | exit status g1 => rfl
      | ok v g1 => rfl

theorem visit_all_with_diag (o : Options) (fopen_rb : CStr → Option (List Nat)) (e : List Diag) :
    ∀ (entries : List (CStr × TypeFlag)) (g : Globals),
      visit_all o fopen_rb entries (with_diag e g) =
        (visit_all o fopen_rb entries g).with_diag e := by
  intro entries
  induction entries with
  | nil => intro g; rfl
  | cons en rest ih =>
    intro g
    obtain ⟨path, typeflag⟩ := en
    rw [visit_all, visit_all, visitor_with_diag]
    cases visitor o fopen_rb path typeflag g with
    | exit status g1 => rfl
    | ok v g1 => exact ih g1

theorem no_diag_with_diag {α : Type} (e : List Diag) (r : Res α) :
    (r.with_diag e).no_diag = r.no_diag := by
  cases r <;> rfl

theorem with_diag_no_diag (g : Globals) : with_diag g.err (no_diag g) = g := by
  simp [with_diag, no_diag]

/-- Two states that differ in the diagnostic stream only are taken by a
sequence of visitor calls to results that differ in the diagnostic stream
only. -/
theorem visit_all_no_diag (o : Options) (fopen_rb : CStr → Option (List Nat))
    (entries : List (CStr × TypeFlag)) (g g' : Globals) (h : no_diag g = no_diag g') :
    (visit_all o fopen_rb entries g).no_diag = (visit_all o fopen_rb entries g').no_diag := by
  rw [← with_diag_no_diag g, ← with_diag_no_diag g', visit_all_with_diag, visit_all_with_diag,
    no_diag_with_diag, no_diag_with_diag, h]


/-! ## The visitor: entries that are not emitted -/

/-- C12: for a regular file that passes the admission rule and cannot be
opened, `visitor` returns 0 with output, counters and emitted files unchanged,
one warning being added to the diagnostic stream; and the entries delivered
afterwards give the same result, diagnostic stream apart, as if the file had
not been delivered. -/
theorem unopenable_is_skipped (o : Options) (fopen_rb : CStr → Option (List Nat))
    (path : CStr) (g : Globals) (hadm : admits o path .FTW_F = true)
    (hopen : fopen_rb path = none) :
    visitor o fopen_rb path .FTW_F g =
      .ok 0 { g with err := g.err ++ [Diag.cannot_open path] } ∧
    ∀ rest, (visit_all o fopen_rb ((path, .FTW_F) :: rest) g).no_diag =
      (visit_all o fopen_rb rest g).no_diag := by
  have hstep : visitor o fopen_rb path .FTW_F g =
      .ok 0 { g with err := g.err ++ [Diag.cannot_open path] } := by
    rw [visitor_admits_step o fopen_rb path .FTW_F g hadm, hopen]
  refine ⟨hstep, ?_⟩
  intro rest
  rw [visit_all, hstep]
  exact visit_all_no_diag o fopen_rb rest _ g rfl

/-- C12 on Scenario D: `locked.c` is passed over with a warning and `ok.c` is
emitted as it is without `locked.c`. -/
theorem unopenable_is_skipped_witness :
    admits (optsExts ".c") (cstr "locked.c") .FTW_F = true ∧
    fsScenarioD (cstr "locked.c") = none ∧
    visitor (optsExts ".c") fsScenarioD (cstr "locked.c") .FTW_F (initGlobals 500) =
      .ok 0 { initGlobals 500 with err := [Diag.cannot_open (cstr "locked.c")] } ∧
    (visit_all (optsExts ".c") fsScenarioD [(cstr "locked.c", .FTW_F), (cstr "ok.c", .FTW_F)]
        (initGlobals 500)).no_diag =
      (visit_all (optsExts ".c") fsScenarioD [(cstr "ok.c", .FTW_F)] (initGlobals 500)).no_diag :=
  ⟨by decide, by decide,
   (unopenable_is_skipped (optsExts ".c") fsScenarioD (cstr "locked.c") (initGlobals 500)
      (by decide) (by decide)).1,
   (unopenable_is_skipped (optsExts ".c") fsScenarioD (cstr "locked.c") (initGlobals 500)
      (by decide) (by decide)).2 [(cstr "ok.c", .FTW_F)]⟩

set_option maxRecDepth 100000 in
/-- Scenario D in full: the output is the frame of `ok.c`, one file is counted
and the diagnostic stream holds the warning for `locked.c`. -/
theorem scenario_d :
    visit_all (optsExts ".c") fsScenarioD [(cstr "locked.c", .FTW_F), (cstr "ok.c", .FTW_F)]
        (initGlobals 500) =
      .ok () { out := frame (cstr "ok.c") [120], room := 500 - 115, bytes_written := 115,
               files_written := 1, err := [Diag.cannot_open (cstr "locked.c")],
               emitted := [cstr "ok.c"] } := by
  decide

/-- C14: on an entry that is not a regular file `visitor` returns with every
global unchanged and nothing written to the diagnostic stream.  On a directory,
readable or not, it returns `FTW_SKIP_SUBTREE` or 0 as `should_skip_dir`
decides; on every other kind it returns 0. -/
theorem visitor_not_regular (o : Options) (fopen_rb : CStr → Option (List Nat))
    (path : CStr) (typeflag : TypeFlag) (g : Globals) (hf : typeflag ≠ .FTW_F) :
    (∃ r, visitor o fopen_rb path typeflag g = .ok r g) ∧
    (typeflag = .FTW_D ∨ typeflag = .FTW_DNR →
      visitor o fopen_rb path typeflag g =
        .ok (if should_skip_dir o path then FTW_SKIP_SUBTREE else 0) g) ∧
    (typeflag ≠ .FTW_D → typeflag ≠ .FTW_DNR →
      visitor o fopen_rb path typeflag g = .ok 0 g) := by
  refine ⟨?_, ?_, ?_⟩
  · exact visitor_rejects o fopen_rb path typeflag g (by simp [admits, hf])
  · intro hd
    unfold visitor
    rw [if_pos hd]
    cases should_skip_dir o path <;> simp
  · intro h1 h2
    unfold visitor
    rw [if_neg (by simp [h1, h2]), if_pos hf]

/-- C14 on a symbolic link with an admissible name and on an unreadable hidden
directory. -/
theorem visitor_not_regular_witness :
    TypeFlag.FTW_SL ≠ TypeFlag.FTW_F ∧
    visitor (optsExts ".c") fsAll (cstr "link.c") .FTW_SL (initGlobals 500) =
      .ok 0 (initGlobals 500) ∧
    visitor (optsExts ".c") fsAll (cstr "p/.cache") .FTW_DNR (initGlobals 500) =
      .ok FTW_SKIP_SUBTREE (initGlobals 500) :=
  ⟨by decide,
   (visitor_not_regular (optsExts ".c") fsAll (cstr "link.c") .FTW_SL (initGlobals 500)
      (by decide)).2.2 (by decide) (by decide),
   by decide⟩


/-! ## The tree walk: runs that emit nothing -/

mutual
/-- When no entry is admitted, the walk returns with every global unchanged. -/
theorem nftw_entry_rejects (o : Options) (fopen_rb : CStr → Option (List Nat)) (flags : Nat)
    (hrej : ∀ p f, admits o p f = false) :
    ∀ (t : Tree) (path : CStr) (g : Globals),
      ∃ r, nftw_entry (visitor o fopen_rb) flags path t g = .ok r g
  | .leaf name typeflag, path, g => by
    obtain ⟨r, hr⟩ := visitor_rejects o fopen_rb path typeflag g (hrej path typeflag)
    rw [nftw_entry, hr]
    simp only []
    split_ifs
    · exact ⟨_, rfl⟩
    · exact ⟨_, rfl⟩
  | .dir name readable children, path, g => by
    rw [nftw_entry, visitor_dir]
    simp only []
    split_ifs <;>
      first
      | exact ⟨_, rfl⟩
      | exact nftw_list_rejects o fopen_rb flags hrej children path g
/-- The same over the listing of a directory. -/
theorem nftw_list_rejects (o : Options) (fopen_rb : CStr → Option (List Nat)) (flags : Nat)
    (hrej : ∀ p f, admits o p f = false) :
    ∀ (ts : List Tree) (dir : CStr) (g : Globals),
      ∃ r, nftw_list (visitor o fopen_rb) flags dir ts g = .ok r g
  | [], dir, g => ⟨0, by rw [nftw_list]⟩
  | t :: rest, dir, g => by
    obtain ⟨r, hr⟩ := nftw_entry_rejects o fopen_rb flags hrej t (child_path dir t.name) g
    rw [nftw_list, hr]
    simp only []
    split_ifs
    · exact ⟨_, rfl⟩
    · exact ⟨_, rfl⟩
    · exact nftw_list_rejects o fopen_rb flags hrej rest dir g
end

theorem nftw_rejects (o : Options) (fopen_rb : CStr → Option (List Nat)) (flags : Nat)
    (hrej : ∀ p f, admits o p f = false) (root : Tree) (g : Globals) :
    ∃ r, nftw (visitor o fopen_rb) flags root g = .ok r g := by
  obtain ⟨r, hr⟩ := nftw_entry_rejects o fopen_rb flags hrej root root.name g
  rw [nftw, hr]
  simp only []
  split_ifs
  · exact ⟨_, rfl⟩
  · exact ⟨_, rfl⟩

theorem names_all_commas (csv : CStr) (h : ∀ c ∈ csv, c = COMMA) : names csv = [] := by
  induction csv with
  | nil => exact names_nil
  | cons c t ih =>
    have hc : c = COMMA := h c (List.mem_cons_self _ _)
    subst hc
    rw [names_comma]
    exact ih (fun x hx => h x (List.mem_cons_of_mem _ hx))

theorem has_allowed_ext_no_names (o : Options) (path : CStr) (h : names o.exts = []) :
    has_allowed_ext o path = false := by
  cases hres : has_allowed_ext o path with
  | false => rfl
  | true =>
    obtain ⟨_, _, e, he, _⟩ := (has_allowed_ext_core o path).mp hres
    rw [h] at he
    simp at he

/-- C13: when the extension list is empty or holds commas only,
`has_allowed_ext` is false for every path, and the walk as `main` runs it, on
every tree, file system and sink and for either value of `include_hidden`,
returns with the initial state: empty output, no begin marker issued, both
counters 0. -/
theorem empty_exts_emit_nothing (o : Options) (hexts : ∀ c ∈ o.exts, c = COMMA) :
    (∀ path, has_allowed_ext o path = false) ∧
    ∀ (fopen_rb : CStr → Option (List Nat)) (root : Tree) (room : Nat),
      (∃ r, main_walk o fopen_rb root room = .ok r (initGlobals room)) ∧
      (main_walk o fopen_rb root room).globals.out = [] ∧
      (main_walk o fopen_rb root room).globals.emitted = [] ∧
      (main_walk o fopen_rb root room).globals.files_written = 0 ∧
      (main_walk o fopen_rb root room).globals.bytes_written = 0 := by
  have hext : ∀ path, has_allowed_ext o path = false :=
    fun path => has_allowed_ext_no_names o path (names_all_commas o.exts hexts)
  refine ⟨hext, ?_⟩
  intro fopen_rb root room
  have hrej : ∀ p f, admits o p f = false := by
    intro p f
    simp [admits, hext p]
  obtain ⟨r, hr⟩ := nftw_rejects o fopen_rb (main_flags o) hrej root (initGlobals room)
  have hm : main_walk o fopen_rb root room = .ok r (initGlobals room) := hr
  refine ⟨⟨r, hm⟩, ?_, ?_, ?_, ?_⟩ <;> rw [hm] <;> rfl

/-- C13 on Scenario C: the list `,,` on a tree with source files, hidden
entries included. -/
theorem empty_exts_emit_nothing_witness :
    (∀ c ∈ ({ optsExts ",," with include_hidden := true }).exts, c = COMMA) ∧
    has_allowed_ext { optsExts ",," with include_hidden := true } (cstr "src/a.c") = false ∧
    (main_walk { optsExts ",," with include_hidden := true } fsAll dotRooted 500).globals.out =
      [] :=
  ⟨by decide,
   (empty_exts_emit_nothing { optsExts ",," with include_hidden := true } (by decide)).1
     (cstr "src/a.c"),
   ((empty_exts_emit_nothing { optsExts ",," with include_hidden := true } (by decide)).2
     fsAll dotRooted 500).2.1⟩


/-! ## The tree walk: a hidden root -/

theorem should_skip_dir_hidden (o : Options) (path : CStr) (hh : o.include_hidden = false)
    (hdot : (final_component path).head? = some DOT) : should_skip_dir o path = true := by
  unfold should_skip_dir
  simp [path_basename_eq, hh, hdot]

theorem should_skip_dir_empty_base (o : Options) (path : CStr)
    (hbase : final_component path = []) : should_skip_dir o path = false := by
  unfold should_skip_dir
  simp only [path_basename_eq, hbase, List.head?_nil, reduceCtorEq, decide_False,
    Bool.and_false, Bool.false_eq_true, if_false]
  apply str_list_contains_false_of
  intro e he hs
  simp only [same_name, Bool.false_eq_true, if_false] at hs
  exact nil_not_mem_names _ (hs ▸ he)

/-- C16: with `include_hidden` off, `should_skip_dir` holds for every path
whose part after the last slash begins with a dot; `visitor` then returns
`FTW_SKIP_SUBTREE` on such a directory, and the walk as `main` runs it from
such a root returns that value with the initial state, whatever the root
holds.  The roots `.`, `..` and `../..` are of this kind; for the root `./`
`should_skip_dir` is false. -/
theorem hidden_root_is_skipped (o : Options) (fopen_rb : CStr → Option (List Nat))
    (path : CStr) (readable : Bool) (children : List Tree) (room : Nat) (g : Globals)
    (hh : o.include_hidden = false) (hdot : (final_component path).head? = some DOT) :
    should_skip_dir o path = true ∧
    visitor o fopen_rb path (if readable then .FTW_D else .FTW_DNR) g =
      .ok FTW_SKIP_SUBTREE g ∧
    main_walk o fopen_rb (.dir path readable children) room =
      .ok FTW_SKIP_SUBTREE (initGlobals room) ∧
    (final_component (cstr ".")).head? = some DOT ∧
    (final_component (cstr "..")).head? = some DOT ∧
    (final_component (cstr "../..")).head? = some DOT ∧
    should_skip_dir o (cstr "./") = false := by
  have hskip := should_skip_dir_hidden o path hh hdot
  have hvis : ∀ g, visitor o fopen_rb path (if readable then .FTW_D else .FTW_DNR) g =
      .ok FTW_SKIP_SUBTREE g := by
    intro g
    rw [visitor_dir, hskip]
    rfl
  refine ⟨hskip, hvis g, ?_, by decide, by decide, by decide,
    should_skip_dir_empty_base o _ (by decide)⟩
  have hne : FTW_SKIP_SUBTREE ≠ 0 := by decide
  have hsib : ¬ FTW_SKIP_SUBTREE = FTW_SKIP_SIBLINGS := by decide
  unfold main_walk nftw
  rw [Tree.name, nftw_entry, hvis]
  simp only [ne_eq, hne, not_false_eq_true, if_true, main_flags_no_actionretval,
    Bool.false_eq_true, false_and, if_false]

/-- C16 on a run rooted at `.` with the default options: nothing is emitted
although the tree holds source files. -/
theorem hidden_root_is_skipped_witness :
    defaultOptions.include_hidden = false ∧
    (final_component (cstr ".")).head? = some DOT ∧
    main_walk defaultOptions fsAll dotRooted 500 = .ok FTW_SKIP_SUBTREE (initGlobals 500) :=
  ⟨rfl, by decide,
   (hidden_root_is_skipped defaultOptions fsAll (cstr ".") true
      [.leaf (cstr "main.c") .FTW_F, .dir (cstr "src") true [.leaf (cstr "a.c") .FTW_F]]
      500 (initGlobals 500) rfl (by decide)).2.2.1⟩

/-! ## The copy loop: chunk size -/

/-- C15: on a sink with room for the content, the copy loop with any positive
buffer size, allowed more iterations than the content has bytes, returns after
appending exactly the content to the output and adding its length, modulo
`2 ^ 64`, to the byte counter; the result does not depend on the buffer size
and is that of `copy_stream`. -/
theorem copy_stream_any_chunk (content : List Nat) (size : Nat) (g : Globals)
    (hsize : 0 < size) (hroom : content.length ≤ g.room) (hb : g.bytes_written < 2 ^ 64) :
    (∀ fuel, content.length < fuel →
      copy_loop size fuel content g =
        .ok () { g with out := g.out ++ content, room := g.room - content.length,
                        bytes_written := (g.bytes_written + content.length) % 2 ^ 64 }) ∧
    copy_stream content g =
      .ok () { g with out := g.out ++ content, room := g.room - content.length,
                      bytes_written := (g.bytes_written + content.length) % 2 ^ 64 } := by
  have hres : (if content = [] then g else appended content g) =
      { g with out := g.out ++ content, room := g.room - content.length,
               bytes_written := (g.bytes_written + content.length) % 2 ^ 64 } := by
    by_cases hc : content = []
    · subst hc
      simp only [if_true, List.append_nil, List.length_nil, Nat.sub_zero, Nat.add_zero,
        Nat.mod_eq_of_lt hb]
    · simp [hc, appended]
  constructor
  · intro fuel hfuel
    rw [copy_loop_fits size hsize fuel content g hfuel hroom, hres]
  · rw [copy_stream_fits content g hroom, hres]

/-- C15 on a content of four bytes, one of them NUL, with buffers of 1, 2 (an
exact divisor), 3 and 32768 bytes, and on the empty content. -/
theorem copy_stream_any_chunk_witness :
    0 < 2 ∧ [0, 255, 10, 13].length ≤ (initGlobals 10).room ∧
    (initGlobals 10).bytes_written < 2 ^ 64 ∧
    copy_loop 2 5 [0, 255, 10, 13] (initGlobals 10) =
      .ok () { initGlobals 10 with out := [0, 255, 10, 13], room := 6, bytes_written := 4 } ∧
    copy_loop 1 5 [0, 255, 10, 13] (initGlobals 10) =
      copy_loop 3 9 [0, 255, 10, 13] (initGlobals 10) ∧
    copy_loop 2 5 [0, 255, 10, 13] (initGlobals 10) =
      copy_stream [0, 255, 10, 13] (initGlobals 10) ∧
    copy_loop 2 1 [] (initGlobals 10) = .ok () (initGlobals 10) :=
  ⟨by decide, by decide, by decide,
   (copy_stream_any_chunk [0, 255, 10, 13] 2 (initGlobals 10) (by decide) (by decide)
      (by decide)).1 5 (by decide),
   by decide, by decide, by decide⟩

/-! ## The framing is not injective -/

set_option maxRecDepth 100000 in
/-- C17: two different lists of files have the same concatenation of frames,
and the code produces the same output bytes for them: the one file `a.c`
whose content holds an end marker followed by the begin marker of `b.c`,
against the two files `a.c` and `b.c`. -/
theorem framing_not_injective :
    (∃ l₁ l₂ : List (CStr × List Nat), l₁ ≠ l₂ ∧ frames l₁ = frames l₂) ∧
    emitted_files (optsExts ".c") fsNested [(cstr "a.c", .FTW_F)] ≠
      emitted_files (optsExts ".c") fsTwo [(cstr "a.c", .FTW_F), (cstr "b.c", .FTW_F)] ∧
    (∃ g₁ g₂, visit_all (optsExts ".c") fsNested [(cstr "a.c", .FTW_F)] (initGlobals 1000) =
        .ok () g₁ ∧
      visit_all (optsExts ".c") fsTwo [(cstr "a.c", .FTW_F), (cstr "b.c", .FTW_F)]
        (initGlobals 1000) = .ok () g₂ ∧
      g₁.out = g₂.out ∧ g₁.bytes_written = g₂.bytes_written ∧
      g₁.files_written = 1 ∧ g₂.files_written = 2) := by
  refine ⟨⟨[(cstr "a.c", nestedContent)], [(cstr "a.c", [120]), (cstr "b.c", [121])],
    by decide, by decide⟩, by decide, ?_⟩
  refine ⟨_, _, rfl, rfl, by decide, by decide, by decide, by decide⟩


end Codecat
